import Mathlib

/-!
# Singly linked list editor with snapshot undo (singlylinkedlist.c)

Shallow embedding of `src/singlylinkedlist.c`.

Representation.
* A `Node*` chain is a `List Int`: `NULL` is `[]`, and a node with `data = d`
  whose `next` field points at the chain `t` is `d :: t`.
* The `StackNode*` chain is a `List (List Int)`, top of the stack first; every
  entry is the chain its `snapshot` field points at.
* The two globals `head` and `undoStack` are the fields of `State` of the same
  names.  Everything written by `printf` is appended to the field `out`, one
  `Msg` per call, and `exit(0)` is recorded in `exit_status`.
* C `int` is `Int`.  The only arithmetic of the program is `index++` (guarded by
  `index < position`) and `position - 1` (reached only with `position > 0`),
  neither of which can overflow, so no wrap-around is needed.
* `malloc` is taken to succeed (on failure the program prints a message and
  calls `exit(1)`), and `free` has no observable effect on the chains that stay
  reachable.
* The functions that allocate, link, overwrite or free nodes are embedded a
  second time on an explicit memory of cells (`Heap`, `Mem`); the theorems
  `mem_insert_end`, ..., `mem_pop_stack` show that on chains without a common
  node they do what the value-level functions do.
-/

namespace SinglyLinkedList

/-! ## Output -/

/-- Texts written by the `printf` calls of the program, one constructor per
format string. -/
inductive Msg where
  /-- Line 91, "List is empty. Can't insert at position %d.\n". -/
  | listEmptyCantInsert (position : Int)
  /-- Lines 106 and 139, "Position %d out of bounds.\n". -/
  | positionOutOfBounds (position : Int)
  /-- Line 118, "Invalid position %d.\n". -/
  | invalidPosition (position : Int)
  /-- Line 158, "Value %d not found.\n". -/
  | valueNotFound (old_value : Int)
  /-- Line 164, "List is empty.\n". -/
  | listIsEmpty
  /-- Line 169, "%d -> ". -/
  | element (data : Int)
  /-- Line 172, "NULL\n". -/
  | null
  /-- Line 192, "No operations to undo.\n". -/
  | noOperationsToUndo
  /-- Lines 212 to 221, the menu and the "Enter choice: " prompt. -/
  | menu
  /-- Prompts of the `case` bodies of `main`. -/
  | prompt (text : String)
  /-- Line 275, "Exiting...\n". -/
  | exiting
  /-- Line 286, "Invalid choice. Please try again.\n". -/
  | invalidChoice
  deriving DecidableEq, Repr

/-- The characters a message puts on standard output. -/
def Msg.text : Msg → String
  | .listEmptyCantInsert position =>
      "List is empty. Can't insert at position " ++ toString position ++ ".\n"
  | .positionOutOfBounds position => "Position " ++ toString position ++ " out of bounds.\n"
  | .invalidPosition position => "Invalid position " ++ toString position ++ ".\n"
  | .valueNotFound old_value => "Value " ++ toString old_value ++ " not found.\n"
  | .listIsEmpty => "List is empty.\n"
  | .element data => toString data ++ " -> "
  | .null => "NULL\n"
  | .noOperationsToUndo => "No operations to undo.\n"
  | .menu =>
      "\n--- MENU ---\n" ++ "1. Insert at end\n" ++ "2. Insert after position\n"
        ++ "3. Insert before position\n" ++ "4. Insert at beginning\n" ++ "5. Edit node\n"
        ++ "6. Print list\n" ++ "7. Undo last operation\n" ++ "8. Exit\n" ++ "Enter choice: "
  | .prompt text => text
  | .exiting => "Exiting...\n"
  | .invalidChoice => "Invalid choice. Please try again.\n"

/-- All the characters of a sequence of messages, in order. -/
def render (ms : List Msg) : String :=
  ms.foldl (fun acc m => acc ++ m.text) ""

/-! ## Program state -/

/-- The globals `head` and `undoStack`, the text printed so far, and the exit
status once `exit` has been called. -/
structure State where
  head : List Int
  undoStack : List (List Int)
  out : List Msg
  exit_status : Option Int
  deriving DecidableEq, Repr

/-- State at program start: `head = NULL`, `undoStack = NULL`, nothing printed. -/
def State.initial : State :=
  { head := [], undoStack := [], out := [], exit_status := none }

/-- One `printf` call. -/
def State.print (s : State) (m : Msg) : State :=
  { s with out := s.out ++ [m] }

/-! ## Utility functions -/

/-- Function `create_node` (lines 23-32): a fresh node holding `data` with
`next = NULL`. -/
def create_node (data : Int) : List Int :=
  [data]

/-- The `while` loop of `copy_list` (lines 42-46).  The first argument is the
copy built so far (`new_head`, whose last node is `temp_new`), the second is
`temp_src`. -/
def copy_list_loop : List Int → List Int → List Int
  | new_head, [] => new_head
  | new_head, d :: temp_src => copy_list_loop (new_head ++ create_node d) temp_src

/-- Function `copy_list` (lines 35-49). -/
def copy_list : List Int → List Int
  | [] => []
  | d :: next => copy_list_loop (create_node d) next

/-! ## Linked list functions -/

/-- The `while` loop of `insert_end` and the assignment after it (lines 71-74).
The node `temp` has data `d` and next chain given by the last argument; the
result is the chain starting at `temp` after `temp->next = new_node` has been
executed at the last node. -/
def insert_end_loop (new_node : List Int) : Int → List Int → List Int
  | d, [] => d :: new_node
  | d, d2 :: next => d :: insert_end_loop new_node d2 next

/-- Function `insert_end` (lines 63-75). -/
def insert_end (data : Int) (s : State) : State :=
  let new_node := create_node data
  match s.head with
  | [] => { s with head := new_node }
  | d :: next => { s with head := insert_end_loop new_node d next }

/-- Function `insert_begin` (lines 78-82). -/
def insert_begin (data : Int) (s : State) : State :=
  let new_node := create_node data
  { s with head := new_node ++ s.head }

/-- The `while` loop of `insert_after` and the code after it (lines 100-112).
The third argument is the chain starting at `temp`, the fourth is `index`.
The result is `none` when the loop ends with `temp == NULL`, and otherwise the
chain from the node where the walk started, after `new_node` has been linked
behind the node the walk stopped at. -/
def insert_after_loop (position : Int) (new_node : List Int) :
    List Int → Int → Option (List Int)
  | [], _ => none
  | d :: next, index =>
      if index < position then
        (insert_after_loop position new_node next (index + 1)).map (fun l => d :: l)
      else
        some (d :: (new_node ++ next))

/-- Function `insert_after` (lines 85-113). -/
def insert_after (position : Int) (data : Int) (s : State) : State :=
  let new_node := create_node data
  match s.head with
  | [] =>
      if position = 0 then { s with head := new_node }
      else s.print (Msg.listEmptyCantInsert position)
  | d :: next =>
      match insert_after_loop position new_node (d :: next) 0 with
      | none => s.print (Msg.positionOutOfBounds position)
      | some l => { s with head := l }

/-- The `while` loop of `insert_before` and the code after it (lines 133-145);
arguments and result as for `insert_after_loop`, with the loop bound
`position - 1`. -/
def insert_before_loop (position : Int) (new_node : List Int) :
    List Int → Int → Option (List Int)
  | [], _ => none
  | d :: next, index =>
      if index < position - 1 then
        (insert_before_loop position new_node next (index + 1)).map (fun l => d :: l)
      else
        some (d :: (new_node ++ next))

/-- Function `insert_before` (lines 116-146). -/
def insert_before (position : Int) (data : Int) (s : State) : State :=
  if position < 0 then s.print (Msg.invalidPosition position)
  else if position = 0 then insert_begin data s
  else
    let new_node := create_node data
    match insert_before_loop position new_node s.head 0 with
    | none => s.print (Msg.positionOutOfBounds position)
    | some l => { s with head := l }

/-- The `while` loop of `edit_node` (lines 151-157) on the chain starting at
`temp`: `none` when the loop runs off the end, otherwise the chain with the
data of the first matching node overwritten. -/
def edit_node_loop (old_value new_value : Int) : List Int → Option (List Int)
  | [] => none
  | d :: next =>
      if d = old_value then some (new_value :: next)
      else (edit_node_loop old_value new_value next).map (fun l => d :: l)

/-- Function `edit_node` (lines 149-159). -/
def edit_node (old_value new_value : Int) (s : State) : State :=
  match edit_node_loop old_value new_value s.head with
  | some l => { s with head := l }
  | none => s.print (Msg.valueNotFound old_value)

/-- The `while` loop of `print_list` (lines 168-171): one message per node. -/
def print_list_loop : List Int → List Msg
  | [] => []
  | d :: next => Msg.element d :: print_list_loop next

/-- Function `print_list` (lines 162-173). -/
def print_list (node : List Int) (s : State) : State :=
  match node with
  | [] => s.print Msg.listIsEmpty
  | d :: next => { s with out := s.out ++ print_list_loop (d :: next) ++ [Msg.null] }

/-! ## Undo stack functions -/

/-- Function `push_stack` (lines 178-187). -/
def push_stack (s : State) : State :=
  { s with undoStack := copy_list s.head :: s.undoStack }

/-- Function `pop_stack` (lines 190-204). -/
def pop_stack (s : State) : State :=
  match s.undoStack with
  | [] => s.print Msg.noOperationsToUndo
  | snapshot :: next => { s with head := snapshot, undoStack := next }

/-! ## Main loop -/

/-- What one pass of the menu loop reads from standard input: the menu choice,
then the integers the chosen `case` reads with `scanf`, in reading order
(unused ones are ignored). -/
structure MenuInput where
  choice : Int
  first : Int
  second : Int
  deriving DecidableEq, Repr

/-- One pass of the body of `while (1)` in `main` (lines 212-287).  In case 8
every chain is freed before `exit(0)`, so nothing stays reachable: both globals
are left empty. -/
def main_step (i : MenuInput) (s : State) : State :=
  let s := s.print Msg.menu
  if i.choice = 1 then
    let s := s.print (Msg.prompt "Enter value to insert at end: ")
    insert_end i.first (push_stack s)
  else if i.choice = 2 then
    let s := s.print (Msg.prompt "Enter position to insert after (0-based): ")
    let s := s.print (Msg.prompt "Enter value to insert: ")
    insert_after i.first i.second (push_stack s)
  else if i.choice = 3 then
    let s := s.print (Msg.prompt "Enter position to insert before (0-based): ")
    let s := s.print (Msg.prompt "Enter value to insert: ")
    insert_before i.first i.second (push_stack s)
  else if i.choice = 4 then
    let s := s.print (Msg.prompt "Enter value to insert at beginning: ")
    insert_begin i.first (push_stack s)
  else if i.choice = 5 then
    let s := s.print (Msg.prompt "Enter value to edit: ")
    let s := s.print (Msg.prompt "Enter new value: ")
    edit_node i.first i.second (push_stack s)
  else if i.choice = 6 then
    print_list s.head s
  else if i.choice = 7 then
    pop_stack s
  else if i.choice = 8 then
    let s := s.print Msg.exiting
    { s with head := [], undoStack := [], exit_status := some 0 }
  else
    s.print Msg.invalidChoice

/-- The menu loop of `main` on a sequence of inputs; it stops at `exit`. -/
def main_loop : List MenuInput → State → State
  | [], s => s
  | i :: rest, s =>
      let s := main_step i s
      match s.exit_status with
      | some _ => s
      | none => main_loop rest s

/-- The five list operations that `main` runs after `push_stack`, each with its
arguments. -/
def mutating_ops (position data old_value new_value : Int) : List (State → State) :=
  [insert_end data, insert_begin data, insert_after position data,
   insert_before position data, edit_node old_value new_value]

/-- A menu input that selects one of the `case` bodies 1 to 5. -/
def MenuInput.mutating (i : MenuInput) : Prop :=
  1 ≤ i.choice ∧ i.choice ≤ 5

instance (i : MenuInput) : Decidable i.mutating :=
  inferInstanceAs (Decidable (1 ≤ i.choice ∧ i.choice ≤ 5))

/-! ## The same functions on an explicit memory

The definitions above treat a chain of nodes as a value, so a snapshot cannot
share a node with the live list by construction.  To state and prove that the
C functions really keep the chains apart, the functions that allocate, link,
overwrite or free nodes are embedded a second time, on a memory of `Node`
cells addressed by pointers.  A result `none` stands for an access through
`NULL` or through a pointer to storage that is not allocated, and for a loop
that does not end (every loop gets as many steps as the memory has cells, plus
one).  The `StackNode` cells are never shared; their chain is kept as the list
of their `snapshot` pointers, top first. -/

/-- A `struct Node` (lines 5-8).  A pointer to a node is its address, a natural
number; 0 is `NULL`. -/
structure Node where
  data : Int
  next : Nat
  deriving DecidableEq, Repr

/-- Node storage: entry `a` of `cells` is the storage at address `a + 1`, and
`none` marks storage that has been freed.  `malloc` always returns an address
that was never used before, so a stale pointer is seen as a pointer to freed
storage. -/
structure Heap where
  cells : List (Option Node)
  deriving DecidableEq, Repr

/-- Load through a pointer: the node stored at `p`, if `p` points to one. -/
def Heap.read (h : Heap) : Nat → Option Node
  | 0 => none
  | a + 1 => (h.cells[a]?).join

/-- Replace the storage at address `p`. -/
def Heap.store (h : Heap) (p : Nat) (c : Option Node) : Heap :=
  ⟨h.cells.set (p - 1) c⟩

/-- Call of `malloc` followed by the initialisation of the new node. -/
def Heap.malloc (h : Heap) (n : Node) : Heap × Nat :=
  (⟨h.cells ++ [some n]⟩, h.cells.length + 1)

/-- Assignment `p->next = q`. -/
def Heap.set_next (h : Heap) (p q : Nat) : Option Heap :=
  match h.read p with
  | none => none
  | some n => some (h.store p (some { n with next := q }))

/-- Assignment `p->data = d`. -/
def Heap.set_data (h : Heap) (p : Nat) (d : Int) : Option Heap :=
  match h.read p with
  | none => none
  | some n => some (h.store p (some { n with data := d }))

/-- Call `free(p)` for a pointer to an allocated node. -/
def Heap.free (h : Heap) (p : Nat) : Option Heap :=
  match h.read p with
  | none => none
  | some _ => some (h.store p none)

/-- The node memory, the globals `head` and `undoStack` as pointers, and the
text printed so far. -/
structure Mem where
  heap : Heap
  head : Nat
  undoStack : List Nat
  out : List Msg
  deriving DecidableEq, Repr

namespace Mem

/-- Function `create_node` (lines 23-32). -/
def create_node (h : Heap) (data : Int) : Heap × Nat :=
  h.malloc { data := data, next := 0 }

/-- The `while` loop of `copy_list` (lines 42-46). -/
def copy_list_loop : Nat → Heap → Nat → Nat → Option Heap
  | 0, _, _, _ => none
  | fuel + 1, h, temp_new, temp_src =>
      if temp_src = 0 then some h
      else
        match h.read temp_src with
        | none => none
        | some src =>
            let r := create_node h src.data
            match r.1.set_next temp_new r.2 with
            | none => none
            | some h2 =>
                match h2.read temp_new, h2.read temp_src with
                | some tn, some src2 => copy_list_loop fuel h2 tn.next src2.next
                | _, _ => none

/-- Function `copy_list` (lines 35-49): the memory after the call and the
pointer returned. -/
def copy_list (h : Heap) (source : Nat) : Option (Heap × Nat) :=
  if source = 0 then some (h, 0)
  else
    match h.read source with
    | none => none
    | some src =>
        let r := create_node h src.data
        match r.1.read source with
        | none => none
        | some src1 =>
            match copy_list_loop (h.cells.length + 1) r.1 r.2 src1.next with
            | none => none
            | some h2 => some (h2, r.2)

/-- Function `free_list` (lines 52-58). -/
def free_list : Nat → Heap → Nat → Option Heap
  | 0, _, _ => none
  | fuel + 1, h, node =>
      if node = 0 then some h
      else
        match h.read node with
        | none => none
        | some temp =>
            match h.free node with
            | none => none
            | some h1 => free_list fuel h1 temp.next

/-- The `while` loop of `insert_end` (lines 71-72): the node `temp` ends at. -/
def insert_end_loop : Nat → Heap → Nat → Option Nat
  | 0, _, _ => none
  | fuel + 1, h, temp =>
      match h.read temp with
      | none => none
      | some t => if t.next = 0 then some temp else insert_end_loop fuel h t.next

/-- Function `insert_end` (lines 63-75). -/
def insert_end (data : Int) (m : Mem) : Option Mem :=
  let r := create_node m.heap data
  if m.head = 0 then some { m with heap := r.1, head := r.2 }
  else
    match insert_end_loop (r.1.cells.length + 1) r.1 m.head with
    | none => none
    | some temp =>
        match r.1.set_next temp r.2 with
        | none => none
        | some h2 => some { m with heap := h2 }

/-- Function `insert_begin` (lines 78-82). -/
def insert_begin (data : Int) (m : Mem) : Option Mem :=
  let r := create_node m.heap data
  match r.1.set_next r.2 m.head with
  | none => none
  | some h2 => some { m with heap := h2, head := r.2 }

/-- The `while` loop shared by `insert_after` (lines 100-103, bound
`position`) and `insert_before` (lines 133-136, bound `position - 1`): the
value of `temp` when the loop ends. -/
def walk : Nat → Heap → Int → Nat → Int → Option Nat
  | 0, _, _, _, _ => none
  | fuel + 1, h, bound, temp, index =>
      if temp ≠ 0 ∧ index < bound then
        match h.read temp with
        | none => none
        | some t => walk fuel h bound t.next (index + 1)
      else some temp

/-- The two assignments `new_node->next = temp->next; temp->next = new_node;`
(lines 111-112 and 144-145). -/
def link_after (h : Heap) (temp new_node : Nat) : Option Heap :=
  match h.read temp with
  | none => none
  | some t =>
      match h.set_next new_node t.next with
      | none => none
      | some h1 => h1.set_next temp new_node

/-- The error exits `printf(...); free(new_node); return;`. -/
def refuse (h : Heap) (new_node : Nat) (msg : Msg) (m : Mem) : Option Mem :=
  match h.free new_node with
  | none => none
  | some h1 => some { m with heap := h1, out := m.out ++ [msg] }

/-- Function `insert_after` (lines 85-113). -/
def insert_after (position : Int) (data : Int) (m : Mem) : Option Mem :=
  let r := create_node m.heap data
  if m.head = 0 then
    if position = 0 then some { m with heap := r.1, head := r.2 }
    else refuse r.1 r.2 (Msg.listEmptyCantInsert position) m
  else
    match walk (r.1.cells.length + 1) r.1 position m.head 0 with
    | none => none
    | some temp =>
        if temp = 0 then refuse r.1 r.2 (Msg.positionOutOfBounds position) m
        else
          match link_after r.1 temp r.2 with
          | none => none
          | some h2 => some { m with heap := h2 }

/-- Function `insert_before` (lines 116-146). -/
def insert_before (position : Int) (data : Int) (m : Mem) : Option Mem :=
  if position < 0 then some { m with out := m.out ++ [Msg.invalidPosition position] }
  else if position = 0 then insert_begin data m
  else
    let r := create_node m.heap data
    match walk (r.1.cells.length + 1) r.1 (position - 1) m.head 0 with
    | none => none
    | some temp =>
        if temp = 0 then refuse r.1 r.2 (Msg.positionOutOfBounds position) m
        else
          match link_after r.1 temp r.2 with
          | none => none
          | some h2 => some { m with heap := h2 }

/-- The `while` loop of `edit_node` (lines 151-157): `some none` when it runs
off the end, `some (some h)` with the memory after the assignment otherwise. -/
def edit_node_loop : Nat → Heap → Int → Int → Nat → Option (Option Heap)
  | 0, _, _, _, _ => none
  | fuel + 1, h, old_value, new_value, temp =>
      if temp = 0 then some none
      else
        match h.read temp with
        | none => none
        | some t =>
            if t.data = old_value then (h.set_data temp new_value).map some
            else edit_node_loop fuel h old_value new_value t.next

/-- Function `edit_node` (lines 149-159). -/
def edit_node (old_value new_value : Int) (m : Mem) : Option Mem :=
  match edit_node_loop (m.heap.cells.length + 1) m.heap old_value new_value m.head with
  | none => none
  | some none => some { m with out := m.out ++ [Msg.valueNotFound old_value] }
  | some (some h1) => some { m with heap := h1 }

/-- Function `push_stack` (lines 178-187). -/
def push_stack (m : Mem) : Option Mem :=
  match copy_list m.heap m.head with
  | none => none
  | some r => some { m with heap := r.1, undoStack := r.2 :: m.undoStack }

/-- Function `pop_stack` (lines 190-204). -/
def pop_stack (m : Mem) : Option Mem :=
  match m.undoStack with
  | [] => some { m with out := m.out ++ [Msg.noOperationsToUndo] }
  | snapshot :: next =>
      match free_list (m.heap.cells.length + 1) m.heap m.head with
      | none => none
      | some h1 => some { m with heap := h1, head := snapshot, undoStack := next }

/-- The five list operations on the memory, in the order of `mutating_ops`. -/
def mutating_ops (position data old_value new_value : Int) : List (Mem → Option Mem) :=
  [insert_end data, insert_begin data, insert_after position data,
   insert_before position data, edit_node old_value new_value]

end Mem

/-- Segment of a chain: following `next` from `p` visits exactly the nodes
`cs`, given by address and data, and then arrives at `q`. -/
def Seg (h : Heap) : Nat → List (Nat × Int) → Nat → Prop
  | p, [], q => p = q
  | p, c :: cs, q => p = c.1 ∧ ∃ nx, h.read c.1 = some ⟨c.2, nx⟩ ∧ Seg h nx cs q

/-- A chain that ends in `NULL`. -/
def Chain (h : Heap) (p : Nat) (cs : List (Nat × Int)) : Prop :=
  Seg h p cs 0

/-- The pointer `p` holds the list `xs`: a chain of nodes from `p` to `NULL`
carries the data `xs`. -/
def Holds (h : Heap) (p : Nat) (xs : List Int) : Prop :=
  ∃ cs, Chain h p cs ∧ cs.map Prod.snd = xs

/-- The memory state `m` represents the state `s`: `head` holds the live list,
the snapshot pointers hold the entries of the undo stack in order, no node
belongs to two of these chains or twice to one, and the printed text is the
same. -/
def Represents (m : Mem) (s : State) : Prop :=
  ∃ (live : List (Nat × Int)) (snaps : List (List (Nat × Int))),
    Chain m.heap m.head live
      ∧ live.map Prod.snd = s.head
      ∧ List.Forall₂ (Chain m.heap) m.undoStack snaps
      ∧ snaps.map (List.map Prod.snd) = s.undoStack
      ∧ (live.map Prod.fst ++ (snaps.map (List.map Prod.fst)).flatten).Nodup
      ∧ m.out = s.out

/-! ## Auxiliary facts about the loops -/

theorem copy_list_loop_eq (new_head temp_src : List Int) :
    copy_list_loop new_head temp_src = new_head ++ temp_src := by
  induction temp_src generalizing new_head with
  | nil => simp [copy_list_loop]
  | cons d t ih => simp [copy_list_loop, ih, create_node]

theorem copy_list_eq (source : List Int) : copy_list source = source := by
  cases source with
  | nil => rfl
  | cons d t => simp [copy_list, copy_list_loop_eq, create_node]

theorem insert_end_loop_eq (new_node : List Int) (d : Int) (next : List Int) :
    insert_end_loop new_node d next = d :: next ++ new_node := by
  induction next generalizing d with
  | nil => simp [insert_end_loop]
  | cons d2 t ih => simp [insert_end_loop, ih]

/-- When the counter has already reached the bound the walk stops at the node
it stands on. -/
theorem insert_after_loop_stop (position : Int) (new_node : List Int) (d : Int)
    (next : List Int) (index : Int) (h : position ≤ index) :
    insert_after_loop position new_node (d :: next) index = some (d :: (new_node ++ next)) := by
  simp [insert_after_loop, not_lt.mpr h]

/-- A walk with `n` steps to go on a chain with more than `n` nodes links the
new node behind node `n`. -/
theorem insert_after_loop_in_range (position : Int) (new_node : List Int) (n : Nat) :
    ∀ (temp : List Int) (index : Int), position = index + n → n < temp.length →
      insert_after_loop position new_node temp index
        = some (temp.take (n + 1) ++ new_node ++ temp.drop (n + 1)) := by
  induction n with
  | zero =>
      intro temp index hp hlen
      cases temp with
      | nil => simp at hlen
      | cons d next =>
          rw [insert_after_loop_stop position new_node d next index (by omega)]
          simp
  | succ n ih =>
      intro temp index hp hlen
      cases temp with
      | nil => simp at hlen
      | cons d next =>
          have hlt : index < position := by omega
          have hlen2 : n < next.length := by simpa using hlen
          simp [insert_after_loop, hlt, ih next (index + 1) (by push_cast at hp; omega) hlen2]

/-- A walk with at least as many steps to go as the chain has nodes runs off the
end. -/
theorem insert_after_loop_out_of_range (position : Int) (new_node : List Int) :
    ∀ (temp : List Int) (index : Int), index + temp.length ≤ position →
      insert_after_loop position new_node temp index = none := by
  intro temp
  induction temp with
  | nil => intro index _; simp [insert_after_loop]
  | cons d next ih =>
      intro index h
      have hlt : index < position := by simp at h; omega
      simp [insert_after_loop, hlt, ih (index + 1) (by simp at h; omega)]

theorem insert_before_loop_eq (position : Int) (new_node temp : List Int) (index : Int) :
    insert_before_loop position new_node temp index
      = insert_after_loop (position - 1) new_node temp index := by
  induction temp generalizing index with
  | nil => simp [insert_before_loop, insert_after_loop]
  | cons d next ih => simp [insert_before_loop, insert_after_loop, ih]

theorem edit_node_loop_none (old_value new_value : Int) (temp : List Int) :
    edit_node_loop old_value new_value temp = none ↔ old_value ∉ temp := by
  induction temp with
  | nil => simp [edit_node_loop]
  | cons d next ih =>
      by_cases hd : d = old_value
      · simp [edit_node_loop, hd]
      · simp [edit_node_loop, hd, ih, Ne.symm hd]

theorem edit_node_loop_some (old_value new_value : Int) (temp : List Int)
    (h : old_value ∈ temp) :
    ∃ i, i < temp.length ∧ temp[i]? = some old_value
      ∧ (∀ j, j < i → temp[j]? ≠ some old_value)
      ∧ edit_node_loop old_value new_value temp = some (temp.set i new_value) := by
  induction temp with
  | nil => simp at h
  | cons d next ih =>
      by_cases hd : d = old_value
      · exact ⟨0, by simp, by simp [hd], by simp, by simp [edit_node_loop, hd]⟩
      · have hmem : old_value ∈ next := by
          rcases List.mem_cons.mp h with h1 | h1
          · exact absurd h1.symm hd
          · exact h1
        obtain ⟨i, hi, hget, hmin, hloop⟩ := ih hmem
        refine ⟨i + 1, by simpa using hi, by simpa using hget, ?_, by
          simp [edit_node_loop, hd, hloop]⟩
        intro j hj
        cases j with
        | zero => simpa using hd
        | succ j => simpa using hmin j (by omega)

/-! ## Frame facts: what each operation leaves alone -/

@[simp] theorem print_head (s : State) (m : Msg) : (s.print m).head = s.head := rfl

@[simp] theorem print_undoStack (s : State) (m : Msg) : (s.print m).undoStack = s.undoStack := rfl

@[simp] theorem print_exit_status (s : State) (m : Msg) :
    (s.print m).exit_status = s.exit_status := rfl

@[simp] theorem print_out (s : State) (m : Msg) : (s.print m).out = s.out ++ [m] := rfl

@[simp] theorem insert_end_undoStack (data : Int) (s : State) :
    (insert_end data s).undoStack = s.undoStack := by
  unfold insert_end; split <;> rfl

@[simp] theorem insert_begin_undoStack (data : Int) (s : State) :
    (insert_begin data s).undoStack = s.undoStack := rfl

@[simp] theorem insert_after_undoStack (position data : Int) (s : State) :
    (insert_after position data s).undoStack = s.undoStack := by
  unfold insert_after
  dsimp only
  split
  · split <;> rfl
  · split <;> rfl

@[simp] theorem insert_before_undoStack (position data : Int) (s : State) :
    (insert_before position data s).undoStack = s.undoStack := by
  unfold insert_before
  dsimp only
  split
  · rfl
  · split
    · rfl
    · split <;> rfl

@[simp] theorem edit_node_undoStack (old_value new_value : Int) (s : State) :
    (edit_node old_value new_value s).undoStack = s.undoStack := by
  unfold edit_node; split <;> rfl

@[simp] theorem insert_end_exit_status (data : Int) (s : State) :
    (insert_end data s).exit_status = s.exit_status := by
  unfold insert_end; split <;> rfl

@[simp] theorem insert_begin_exit_status (data : Int) (s : State) :
    (insert_begin data s).exit_status = s.exit_status := rfl

@[simp] theorem insert_after_exit_status (position data : Int) (s : State) :
    (insert_after position data s).exit_status = s.exit_status := by
  unfold insert_after
  dsimp only
  split
  · split <;> rfl
  · split <;> rfl

@[simp] theorem insert_before_exit_status (position data : Int) (s : State) :
    (insert_before position data s).exit_status = s.exit_status := by
  unfold insert_before
  dsimp only
  split
  · rfl
  · split
    · rfl
    · split <;> rfl

@[simp] theorem edit_node_exit_status (old_value new_value : Int) (s : State) :
    (edit_node old_value new_value s).exit_status = s.exit_status := by
  unfold edit_node; split <;> rfl

@[simp] theorem push_stack_head (s : State) : (push_stack s).head = s.head := rfl

@[simp] theorem push_stack_undoStack (s : State) :
    (push_stack s).undoStack = s.head :: s.undoStack := by
  simp [push_stack, copy_list_eq]

@[simp] theorem push_stack_exit_status (s : State) :
    (push_stack s).exit_status = s.exit_status := rfl

/-- Popping a stack whose top is known restores that top. -/
theorem pop_stack_cons (s : State) (snapshot : List Int) (next : List (List Int))
    (h : s.undoStack = snapshot :: next) :
    pop_stack s = { s with head := snapshot, undoStack := next } := by
  unfold pop_stack; rw [h]

/-- Every selected operation of cases 1 to 5 leaves the undo stack alone. -/
theorem mutating_ops_undoStack (position data old_value new_value : Int)
    (M : State → State) (hM : M ∈ mutating_ops position data old_value new_value)
    (s : State) : (M s).undoStack = s.undoStack := by
  simp only [mutating_ops, List.mem_cons, List.mem_singleton, List.not_mem_nil, or_false] at hM
  rcases hM with h | h | h | h | h <;> subst h <;> simp

/-- A pass of the menu loop with a choice from 1 to 5 pushes the list it starts
from and does not exit. -/
theorem main_step_mutating (i : MenuInput) (hi : i.mutating) (s : State) :
    (main_step i s).undoStack = s.head :: s.undoStack
      ∧ (main_step i s).exit_status = s.exit_status := by
  obtain ⟨h1, h5⟩ := hi
  have hc : i.choice = 1 ∨ i.choice = 2 ∨ i.choice = 3 ∨ i.choice = 4 ∨ i.choice = 5 := by
    omega
  rcases hc with h | h | h | h | h <;> simp [main_step, h]

/-- Depth of the undo stack after a run of passes with choices from 1 to 5. -/
theorem main_loop_mutating_depth (acts : List MenuInput) (hacts : ∀ i ∈ acts, i.mutating) :
    ∀ s : State, s.exit_status = none →
      (main_loop acts s).undoStack.length = s.undoStack.length + acts.length := by
  induction acts with
  | nil => intro s _; simp [main_loop]
  | cons i rest ih =>
      intro s hs
      have hi := main_step_mutating i (hacts i (List.mem_cons_self _ _)) s
      have hrest : ∀ j ∈ rest, j.mutating := fun j hj => hacts j (List.mem_cons_of_mem _ hj)
      have hex : (main_step i s).exit_status = none := by rw [hi.2, hs]
      simp only [main_loop, hex]
      rw [ih hrest (main_step i s) hex, hi.1]
      simp
      omega

/-! ## Undo stack: push, operate, pop -/

/-- C1 (push/undo inverse): from any state, running `push_stack`, then any one
of the five list operations with any arguments, then `pop_stack`, gives back
the list and the undo stack of the starting state, whether the operation
succeeded or reported an error. -/
theorem push_undo_inverse (s : State) (position data old_value new_value : Int)
    (M : State → State) (hM : M ∈ mutating_ops position data old_value new_value) :
    (pop_stack (M (push_stack s))).head = s.head
      ∧ (pop_stack (M (push_stack s))).undoStack = s.undoStack := by
  have h : (M (push_stack s)).undoStack = s.head :: s.undoStack := by
    rw [mutating_ops_undoStack position data old_value new_value M hM]
    simp
  rw [pop_stack_cons _ _ _ h]
  exact ⟨rfl, rfl⟩

/-- Instance of C1: an edit of `[1, 2, 1]` above a stack holding `[5]`, undone. -/
theorem push_undo_inverse_witness :
    (edit_node 1 9 (push_stack ⟨[1, 2, 1], [[5]], [], none⟩)).head = [9, 2, 1]
      ∧ (pop_stack (edit_node 1 9 (push_stack ⟨[1, 2, 1], [[5]], [], none⟩))).head = [1, 2, 1]
      ∧ (pop_stack (edit_node 1 9 (push_stack ⟨[1, 2, 1], [[5]], [], none⟩))).undoStack
          = [[5]] :=
  ⟨by decide,
    push_undo_inverse ⟨[1, 2, 1], [[5]], [], none⟩ 0 0 1 9 (edit_node 1 9)
      (by simp [mutating_ops])⟩

/-- C2 (undo depth): after any sequence of menu passes with choices from 1 to 5
run from the initial state, the undo stack has as many entries as there were
passes; and `pop_stack` on a non-empty stack removes exactly one entry. -/
theorem undo_depth :
    (∀ acts : List MenuInput, (∀ i ∈ acts, i.mutating) →
        (main_loop acts State.initial).undoStack.length = acts.length)
      ∧ (∀ s : State, s.undoStack ≠ [] →
          (pop_stack s).undoStack.length + 1 = s.undoStack.length) := by
  constructor
  · intro acts hacts
    simpa [State.initial] using main_loop_mutating_depth acts hacts State.initial rfl
  · intro s hs
    obtain ⟨snapshot, next, h⟩ := List.exists_cons_of_ne_nil hs
    rw [pop_stack_cons s snapshot next h, h]
    simp

/-- Instance of C2: three passes (one of them an insertion that is refused)
leave three entries, and an undo then leaves two. -/
theorem undo_depth_witness :
    (main_loop [⟨1, 5, 0⟩, ⟨2, 7, 6⟩, ⟨5, 5, 8⟩] State.initial).undoStack.length = 3
      ∧ (pop_stack (main_loop [⟨1, 5, 0⟩, ⟨2, 7, 6⟩, ⟨5, 5, 8⟩] State.initial)).undoStack.length
            + 1
          = (main_loop [⟨1, 5, 0⟩, ⟨2, 7, 6⟩, ⟨5, 5, 8⟩] State.initial).undoStack.length :=
  ⟨undo_depth.1 [⟨1, 5, 0⟩, ⟨2, 7, 6⟩, ⟨5, 5, 8⟩] (by decide),
    undo_depth.2 (main_loop [⟨1, 5, 0⟩, ⟨2, 7, 6⟩, ⟨5, 5, 8⟩] State.initial) (by decide)⟩

/-! ## insert_after -/

/-- C3 (insert_after on a non-empty list): for a position `p` with
`0 ≤ p < length`, the result is the first `p + 1` elements, then the new value,
then the remaining elements, and nothing is printed; for `p ≥ length` the
out-of-bounds message is printed and the list is unchanged. -/
theorem insert_after_nonempty (s : State) (p v : Int) (hne : s.head ≠ []) :
    (0 ≤ p → p < s.head.length →
        insert_after p v s
          = { s with head := s.head.take (p.toNat + 1) ++ v :: s.head.drop (p.toNat + 1) })
      ∧ ((s.head.length : Int) ≤ p →
          insert_after p v s = s.print (Msg.positionOutOfBounds p)
            ∧ (insert_after p v s).head = s.head) := by
  rcases s with ⟨_ | ⟨d, next⟩, st, out, ex⟩
  · exact absurd rfl hne
  · constructor
    · intro h0 hlt
      have hloop := insert_after_loop_in_range p (create_node v) p.toNat (d :: next) 0
        (by omega) (by simp at hlt ⊢; omega)
      unfold insert_after
      dsimp only
      rw [hloop]
      simp [create_node]
    · intro hge
      have hloop := insert_after_loop_out_of_range p (create_node v) (d :: next) 0
        (by simpa using hge)
      simp [insert_after, hloop]

/-- Instance of C3 on `[10, 20, 30]`: position 2 appends 99, position 3 is
refused. -/
theorem insert_after_nonempty_witness :
    insert_after 2 99 ⟨[10, 20, 30], [], [], none⟩ = ⟨[10, 20, 30, 99], [], [], none⟩
      ∧ insert_after 3 99 ⟨[10, 20, 30], [], [], none⟩
          = ⟨[10, 20, 30], [], [Msg.positionOutOfBounds 3], none⟩ :=
  ⟨(insert_after_nonempty ⟨[10, 20, 30], [], [], none⟩ 2 99 (by decide)).1
      (by decide) (by decide),
    ((insert_after_nonempty ⟨[10, 20, 30], [], [], none⟩ 3 99 (by decide)).2 (by decide)).1⟩

/-- On a non-empty list a negative position is not rejected: the loop of
`insert_after` does not run and the new node is linked behind the first one. -/
theorem insert_after_negative (d : Int) (next : List Int) (st : List (List Int))
    (out : List Msg) (ex : Option Int) (p v : Int) (hp : p < 0) :
    insert_after p v ⟨d :: next, st, out, ex⟩ = ⟨d :: v :: next, st, out, ex⟩ := by
  unfold insert_after
  dsimp only
  rw [insert_after_loop_stop p (create_node v) d next 0 (le_of_lt hp)]
  simp [create_node]

/-- C4, the code at the failing input: on `[10, 20]`, `insert_after(-1, 99)`
prints nothing and yields `[10, 99, 20]`. -/
theorem insert_after_minus_one :
    insert_after (-1) 99 ⟨[10, 20], [], [], none⟩ = ⟨[10, 99, 20], [], [], none⟩ := by
  decide

/-- C5 (insert_after on the empty list): position 0 yields the one-element
list; any other position, positive or negative, prints the list-is-empty error
and the list stays empty. -/
theorem insert_after_empty (s : State) (p v : Int) (hempty : s.head = []) :
    insert_after 0 v s = { s with head := [v] }
      ∧ (p ≠ 0 →
          insert_after p v s = s.print (Msg.listEmptyCantInsert p)
            ∧ (insert_after p v s).head = []) := by
  rcases s with ⟨hd, st, out, ex⟩
  simp only at hempty
  subst hempty
  constructor
  · simp [insert_after, create_node]
  · intro hp
    simp [insert_after, hp, State.print]

/-- Instance of C5: positions 0, 1 and -1 on the empty list. -/
theorem insert_after_empty_witness :
    insert_after 0 7 State.initial = ⟨[7], [], [], none⟩
      ∧ insert_after 1 7 State.initial = ⟨[], [], [Msg.listEmptyCantInsert 1], none⟩
      ∧ insert_after (-1) 7 State.initial = ⟨[], [], [Msg.listEmptyCantInsert (-1)], none⟩ :=
  ⟨(insert_after_empty State.initial 1 7 rfl).1,
    ((insert_after_empty State.initial 1 7 rfl).2 (by decide)).1,
    ((insert_after_empty State.initial (-1) 7 rfl).2 (by decide)).1⟩

/-! ## insert_before -/

/-- C6 (insert_before for positive positions): for `p ≥ 1`, when
`p ≤ length` the result is the first `p` elements, then the new value, then the
rest, so the new value is at index `p` and the element that was at index `p`
follows it, and nothing is printed; when `p > length` (in particular on the
empty list) the out-of-bounds message is printed and the list is unchanged. -/
theorem insert_before_positive (s : State) (p v : Int) (hp : 1 ≤ p) :
    (p ≤ s.head.length →
        insert_before p v s
            = { s with head := s.head.take p.toNat ++ v :: s.head.drop p.toNat }
          ∧ (insert_before p v s).head[p.toNat]? = some v
          ∧ (insert_before p v s).head[p.toNat + 1]? = s.head[p.toNat]?)
      ∧ ((s.head.length : Int) < p →
          insert_before p v s = s.print (Msg.positionOutOfBounds p)
            ∧ (insert_before p v s).head = s.head) := by
  have h0 : ¬ p < 0 := by omega
  have h1 : ¬ p = 0 := by omega
  constructor
  · intro hle
    have hloop := insert_after_loop_in_range (p - 1) (create_node v) (p - 1).toNat s.head 0
      (by omega) (by omega)
    have hn : (p - 1).toNat + 1 = p.toNat := by omega
    rw [hn] at hloop
    have heq : insert_before p v s
        = { s with head := s.head.take p.toNat ++ v :: s.head.drop p.toNat } := by
      unfold insert_before
      simp only [h0, h1, if_false]
      rw [insert_before_loop_eq, hloop]
      simp [create_node]
    have hlen : (s.head.take p.toNat).length = p.toNat := by
      rw [List.length_take]; omega
    refine ⟨heq, ?_, ?_⟩
    · rw [heq]
      simp only
      rw [List.getElem?_append_right (by omega), hlen]
      simp
    · rw [heq]
      simp only
      rw [List.getElem?_append_right (by omega), hlen]
      simp
  · intro hgt
    have hloop := insert_after_loop_out_of_range (p - 1) (create_node v) s.head 0 (by omega)
    have heq : insert_before p v s = s.print (Msg.positionOutOfBounds p) := by
      unfold insert_before
      simp only [h0, h1, if_false]
      rw [insert_before_loop_eq, hloop]
    exact ⟨heq, by rw [heq]; rfl⟩

/-- Instance of C6 on `[10, 20, 30]`: positions 1 and 3 insert, position 4 is
refused, and position 1 is refused on the empty list. -/
theorem insert_before_positive_witness :
    insert_before 1 99 ⟨[10, 20, 30], [], [], none⟩ = ⟨[10, 99, 20, 30], [], [], none⟩
      ∧ insert_before 3 99 ⟨[10, 20, 30], [], [], none⟩ = ⟨[10, 20, 30, 99], [], [], none⟩
      ∧ insert_before 4 99 ⟨[10, 20, 30], [], [], none⟩
          = ⟨[10, 20, 30], [], [Msg.positionOutOfBounds 4], none⟩
      ∧ insert_before 1 99 State.initial = ⟨[], [], [Msg.positionOutOfBounds 1], none⟩ :=
  ⟨((insert_before_positive ⟨[10, 20, 30], [], [], none⟩ 1 99 (by decide)).1 (by decide)).1,
    ((insert_before_positive ⟨[10, 20, 30], [], [], none⟩ 3 99 (by decide)).1 (by decide)).1,
    ((insert_before_positive ⟨[10, 20, 30], [], [], none⟩ 4 99 (by decide)).2 (by decide)).1,
    ((insert_before_positive State.initial 1 99 (by decide)).2 (by decide)).1⟩

/-- C7 (insert_before rejects negative positions): for `p < 0` the
invalid-position message is printed and the state is otherwise unchanged; and
whenever a call prints the invalid-position message, its position was
negative. -/
theorem insert_before_negative (s : State) (p v : Int) :
    (p < 0 →
        insert_before p v s = s.print (Msg.invalidPosition p)
          ∧ (insert_before p v s).head = s.head)
      ∧ (∀ q : Int, (insert_before p v s).out = s.out ++ [Msg.invalidPosition q] → p < 0) := by
  constructor
  · intro hp
    have heq : insert_before p v s = s.print (Msg.invalidPosition p) := by
      simp [insert_before, hp]
    exact ⟨heq, by rw [heq]; rfl⟩
  · intro q hout
    by_contra hneg
    by_cases h1 : p = 0
    · simp [insert_before, h1, insert_begin] at hout
    · unfold insert_before at hout
      simp only [hneg, h1, if_false] at hout
      split at hout
      · simp at hout
      · simp at hout

/-- Instance of C7: position -2 on `[10, 20]`. -/
theorem insert_before_negative_witness :
    insert_before (-2) 99 ⟨[10, 20], [], [], none⟩
      = ⟨[10, 20], [], [Msg.invalidPosition (-2)], none⟩ :=
  ((insert_before_negative ⟨[10, 20], [], [], none⟩ (-2) 99).1 (by decide)).1

/-- C8 (insert_before at position 0 is insert_begin): for every list,
`insert_before(0, v)` is `insert_begin(v)`, which puts `v` in front of the
unchanged elements and prints nothing; on the empty list `insert_before(0, 5)`
yields `[5]`. -/
theorem insert_before_zero (s : State) (v : Int) :
    insert_before 0 v s = insert_begin v s
      ∧ insert_begin v s = { s with head := v :: s.head }
      ∧ (insert_before 0 v s).out = s.out
      ∧ (insert_before 0 5 State.initial).head = [5] := by
  refine ⟨by simp [insert_before], rfl, by simp [insert_before, insert_begin], by decide⟩

/-! ## edit_node -/

/-- C9 (edit_node changes only the first match): when `old_value` occurs in the
list there is a smallest index `i` holding it; the result has the same length,
holds `new_value` at `i`, agrees with the old list at every other index (later
occurrences of `old_value` included), and nothing is printed. -/
theorem edit_node_first_match (s : State) (old_value new_value : Int)
    (h : old_value ∈ s.head) :
    ∃ i, i < s.head.length ∧ s.head[i]? = some old_value
      ∧ (∀ j, j < i → s.head[j]? ≠ some old_value)
      ∧ edit_node old_value new_value s = { s with head := s.head.set i new_value }
      ∧ (edit_node old_value new_value s).head.length = s.head.length
      ∧ (edit_node old_value new_value s).head[i]? = some new_value
      ∧ (∀ j, j ≠ i → (edit_node old_value new_value s).head[j]? = s.head[j]?) := by
  obtain ⟨i, hi, hget, hmin, hloop⟩ := edit_node_loop_some old_value new_value s.head h
  have heq : edit_node old_value new_value s = { s with head := s.head.set i new_value } := by
    unfold edit_node
    rw [hloop]
  refine ⟨i, hi, hget, hmin, heq, ?_, ?_, ?_⟩
  · rw [heq]; simp
  · rw [heq]; simp [hi]
  · intro j hj
    rw [heq]
    simp [List.getElem?_set_ne (Ne.symm hj)]

/-- Instance of C9: on `[1, 2, 1]`, `edit_node(1, 9)` yields `[9, 2, 1]`. -/
theorem edit_node_first_match_witness :
    (∃ i, i < 3 ∧ [1, 2, 1][i]? = some (1 : Int)
        ∧ (∀ j, j < i → [1, 2, 1][j]? ≠ some (1 : Int))
        ∧ edit_node 1 9 ⟨[1, 2, 1], [], [], none⟩
            = ⟨([1, 2, 1] : List Int).set i 9, [], [], none⟩
        ∧ (edit_node 1 9 ⟨[1, 2, 1], [], [], none⟩).head.length = 3
        ∧ (edit_node 1 9 ⟨[1, 2, 1], [], [], none⟩).head[i]? = some 9
        ∧ (∀ j, j ≠ i → (edit_node 1 9 ⟨[1, 2, 1], [], [], none⟩).head[j]? = [1, 2, 1][j]?))
      ∧ edit_node 1 9 ⟨[1, 2, 1], [], [], none⟩ = ⟨[9, 2, 1], [], [], none⟩ :=
  ⟨edit_node_first_match ⟨[1, 2, 1], [], [], none⟩ 1 9 (by decide), by decide⟩

/-- C10 (edit_node reports not-found exactly when the value is absent): the
not-found message is printed if and only if `old_value` does not occur in the
list; in that case the state is otherwise unchanged; and on the empty list it
is always printed. -/
theorem edit_node_not_found (s : State) (old_value new_value : Int) :
    ((∃ q : Int, (edit_node old_value new_value s).out = s.out ++ [Msg.valueNotFound q])
        ↔ old_value ∉ s.head)
      ∧ (old_value ∉ s.head →
          edit_node old_value new_value s = s.print (Msg.valueNotFound old_value)
            ∧ (edit_node old_value new_value s).head = s.head)
      ∧ (s.head = [] →
          edit_node old_value new_value s = s.print (Msg.valueNotFound old_value)) := by
  have habsent : old_value ∉ s.head →
      edit_node old_value new_value s = s.print (Msg.valueNotFound old_value) := by
    intro h
    unfold edit_node
    rw [(edit_node_loop_none old_value new_value s.head).mpr h]
  refine ⟨⟨?_, ?_⟩, ?_, ?_⟩
  · rintro ⟨q, hq⟩ hmem
    obtain ⟨i, -, -, -, hloop⟩ := edit_node_loop_some old_value new_value s.head hmem
    unfold edit_node at hq
    rw [hloop] at hq
    simp at hq
  · intro h
    exact ⟨old_value, by rw [habsent h]; rfl⟩
  · intro h
    exact ⟨habsent h, by rw [habsent h]; rfl⟩
  · intro h
    exact habsent (by rw [h]; simp)

/-- Instance of C10: 7 is absent from `[1, 2, 1]` and from the empty list. -/
theorem edit_node_not_found_witness :
    edit_node 7 9 ⟨[1, 2, 1], [], [], none⟩ = ⟨[1, 2, 1], [], [Msg.valueNotFound 7], none⟩
      ∧ edit_node 7 9 State.initial = ⟨[], [], [Msg.valueNotFound 7], none⟩ :=
  ⟨((edit_node_not_found ⟨[1, 2, 1], [], [], none⟩ 7 9).2.1 (by decide)).1,
    (edit_node_not_found State.initial 7 9).2.2 rfl⟩

/-! ## State-level forms of the insertions -/

/-- The state `insert_end` leaves: the new value behind the old elements. -/
theorem insert_end_eq (v : Int) (s : State) :
    insert_end v s = { s with head := s.head ++ [v] } := by
  rcases s with ⟨_ | ⟨d, next⟩, st, out, ex⟩
  · rfl
  · simp [insert_end, insert_end_loop_eq, create_node]

/-- On a non-empty list `insert_after` and `insert_before` run the same walk,
the latter with the bound one smaller. -/
theorem insert_before_eq_match (p v : Int) (s : State) (hp : 1 ≤ p) :
    insert_before p v s
      = match insert_after_loop (p - 1) (create_node v) s.head 0 with
        | none => s.print (Msg.positionOutOfBounds p)
        | some l => { s with head := l } := by
  have h0 : ¬ p < 0 := by omega
  have h1 : ¬ p = 0 := by omega
  unfold insert_before
  simp only [h0, h1, if_false]
  rw [insert_before_loop_eq]

theorem insert_after_eq_match (p v : Int) (s : State) (hne : s.head ≠ []) :
    insert_after p v s
      = match insert_after_loop p (create_node v) s.head 0 with
        | none => s.print (Msg.positionOutOfBounds p)
        | some l => { s with head := l } := by
  rcases s with ⟨_ | ⟨d, next⟩, st, out, ex⟩
  · exact absurd rfl hne
  · rfl

/-! ## insert_end -/

/-- C11 (insert_end appends): for every list, the empty one included,
`insert_end(v)` yields the old elements in their order followed by `v`, and it
prints nothing. -/
theorem insert_end_appends (s : State) (v : Int) :
    insert_end v s = { s with head := s.head ++ [v] }
      ∧ (insert_end v s).head = s.head ++ [v]
      ∧ (insert_end v s).out = s.out
      ∧ (insert_end v State.initial).head = [v] := by
  have h := insert_end_eq v s
  exact ⟨h, by rw [h], by rw [h], rfl⟩

/-! ## Undo on an empty stack -/

/-- C13 (undo on an empty stack): with an empty undo stack `pop_stack` prints
the nothing-to-undo message and leaves list and stack as they were; and when
`pop_stack` prints that message the stack was empty. -/
theorem pop_stack_empty (s : State) :
    (s.undoStack = [] →
        pop_stack s = s.print Msg.noOperationsToUndo
          ∧ (pop_stack s).head = s.head ∧ (pop_stack s).undoStack = [])
      ∧ ((pop_stack s).out = s.out ++ [Msg.noOperationsToUndo] → s.undoStack = []) := by
  constructor
  · intro h
    have heq : pop_stack s = s.print Msg.noOperationsToUndo := by
      unfold pop_stack; rw [h]
    exact ⟨heq, by rw [heq]; rfl, by rw [heq]; exact h⟩
  · intro hout
    cases hst : s.undoStack with
    | nil => rfl
    | cons snapshot next =>
        rw [pop_stack_cons s snapshot next hst] at hout
        simp at hout

/-- Instance of C13: undo on `[10, 20]` with an empty stack. -/
theorem pop_stack_empty_witness :
    pop_stack ⟨[10, 20], [], [], none⟩ = ⟨[10, 20], [], [Msg.noOperationsToUndo], none⟩ :=
  ((pop_stack_empty ⟨[10, 20], [], [], none⟩).1 rfl).1

/-! ## Relations between the insertions -/

/-- C19 (insert_before against insert_after one index earlier): on a non-empty
list and for `p ≥ 1`, `insert_before(p, v)` and `insert_after(p - 1, v)` leave
the same list, and one prints its out-of-bounds message exactly when the other
does; on the empty list `insert_before(1, v)` prints out-of-bounds and leaves
the list empty while `insert_after(0, v)` yields `[v]`. -/
theorem insert_before_vs_insert_after (v : Int) :
    (∀ (s : State) (p : Int), s.head ≠ [] → 1 ≤ p →
        (insert_before p v s).head = (insert_after (p - 1) v s).head
          ∧ (insert_before p v s = s.print (Msg.positionOutOfBounds p)
              ↔ insert_after (p - 1) v s = s.print (Msg.positionOutOfBounds (p - 1))))
      ∧ (∀ s : State, s.head = [] →
          insert_before 1 v s = s.print (Msg.positionOutOfBounds 1)
            ∧ (insert_before 1 v s).head = []
            ∧ insert_after 0 v s = { s with head := [v] }) := by
  constructor
  · intro s p hne hp
    rw [insert_before_eq_match p v s hp, insert_after_eq_match (p - 1) v s hne]
    cases insert_after_loop (p - 1) (create_node v) s.head 0 with
    | none => simp
    | some l =>
        refine ⟨rfl, ?_, ?_⟩
        · intro h
          have := congrArg State.out h
          simp at this
        · intro h
          have := congrArg State.out h
          simp at this
  · intro s hs
    rcases s with ⟨hd, st, out, ex⟩
    simp only at hs
    subst hs
    refine ⟨?_, ?_, ?_⟩
    · rw [insert_before_eq_match 1 v _ (le_refl 1)]
      simp [insert_after_loop]
    · rw [insert_before_eq_match 1 v _ (le_refl 1)]
      simp [insert_after_loop]
    · simp [insert_after, create_node]

/-- Instance of C19 on `[10, 20]` and on the empty list. -/
theorem insert_before_vs_insert_after_witness :
    ((insert_before 2 99 ⟨[10, 20], [], [], none⟩).head
          = (insert_after (2 - 1) 99 ⟨[10, 20], [], [], none⟩).head
        ∧ (insert_before 2 99 ⟨[10, 20], [], [], none⟩
              = State.print ⟨[10, 20], [], [], none⟩ (Msg.positionOutOfBounds 2)
            ↔ insert_after (2 - 1) 99 ⟨[10, 20], [], [], none⟩
              = State.print ⟨[10, 20], [], [], none⟩ (Msg.positionOutOfBounds (2 - 1))))
      ∧ (insert_before 2 99 ⟨[10, 20], [], [], none⟩).head = [10, 20, 99]
      ∧ (insert_before 3 99 ⟨[10, 20], [], [], none⟩).out = [Msg.positionOutOfBounds 3]
      ∧ (insert_after 2 99 ⟨[10, 20], [], [], none⟩).out = [Msg.positionOutOfBounds 2]
      ∧ insert_before 1 99 State.initial = ⟨[], [], [Msg.positionOutOfBounds 1], none⟩
      ∧ insert_after 0 99 State.initial = ⟨[99], [], [], none⟩ :=
  ⟨(insert_before_vs_insert_after 99).1 ⟨[10, 20], [], [], none⟩ 2 (by decide) (by decide),
    by decide, by decide, by decide,
    ((insert_before_vs_insert_after 99).2 State.initial rfl).1,
    ((insert_before_vs_insert_after 99).2 State.initial rfl).2.2⟩

/-- C20 (inserting at the tail boundary is insert_end): for every list,
`insert_before(length, v)` leaves the same state as `insert_end(v)`; for every
non-empty list so does `insert_after(length - 1, v)`; and none of them prints
anything. -/
theorem insert_at_tail (s : State) (v : Int) :
    insert_before s.head.length v s = insert_end v s
      ∧ (s.head ≠ [] → insert_after (s.head.length - 1) v s = insert_end v s)
      ∧ (insert_end v s).out = s.out := by
  rw [insert_end_eq]
  refine ⟨?_, ?_, rfl⟩
  · rcases s with ⟨_ | ⟨d, next⟩, st, out, ex⟩
    · simp [insert_before, insert_begin, create_node]
    · rw [insert_before_eq_match _ v _ (by simp)]
      have hloop := insert_after_loop_in_range ((d :: next).length - 1 : Int) (create_node v)
        next.length (d :: next) 0 (by simp) (by simp)
      simp only at hloop ⊢
      rw [hloop]
      simp [create_node]
  · intro hne
    rcases s with ⟨_ | ⟨d, next⟩, st, out, ex⟩
    · exact absurd rfl hne
    · rw [insert_after_eq_match _ v _ hne]
      have hloop := insert_after_loop_in_range ((d :: next).length - 1 : Int) (create_node v)
        next.length (d :: next) 0 (by simp) (by simp)
      simp only at hloop ⊢
      rw [hloop]
      simp [create_node]

/-- Instance of C20 on `[10, 20, 30]`. -/
theorem insert_at_tail_witness :
    insert_after (3 - 1) 99 ⟨[10, 20, 30], [], [], none⟩
        = insert_end 99 ⟨[10, 20, 30], [], [], none⟩
      ∧ insert_end 99 ⟨[10, 20, 30], [], [], none⟩ = ⟨[10, 20, 30, 99], [], [], none⟩ :=
  ⟨(insert_at_tail ⟨[10, 20, 30], [], [], none⟩ 99).2.1 (by decide), by decide⟩

/-! ## print_list -/

/-- The text of a sequence of messages is the concatenation of their texts. -/
theorem render_eq_join (ms : List Msg) : render ms = String.join (ms.map Msg.text) := by
  simp [render, String.join, List.foldl_map]

theorem render_append (ms ns : List Msg) : render (ms ++ ns) = render ms ++ render ns := by
  apply String.ext
  simp [render_eq_join, String.data_join]

theorem print_list_loop_eq (node : List Int) : print_list_loop node = node.map Msg.element := by
  induction node with
  | nil => rfl
  | cons d next ih => simp [print_list_loop, ih]

/-- A text that ends in "NULL" and a newline is not the empty-list line. -/
theorem ends_in_null_ne_list_is_empty (t : String) : t ++ "NULL\n" ≠ "List is empty.\n" := by
  intro h
  have hdata := congrArg (fun x : String => x.data.reverse) h
  simp at hdata

/-- C12 (rendering format): for a non-empty list `print_list` prints, for each
element in order, its decimal value followed by " -> ", then "NULL" and a
newline; for the empty list it prints "List is empty." and a newline; the two
texts are never equal; and `print_list` changes neither the list nor the undo
stack. -/
theorem print_list_format (s : State) :
    (∀ (d : Int) (next : List Int),
        (print_list (d :: next) s).out
            = s.out ++ ((d :: next).map Msg.element ++ [Msg.null])
          ∧ render ((d :: next).map Msg.element ++ [Msg.null])
              = String.join ((d :: next).map (fun x => toString x ++ " -> ")) ++ "NULL\n"
          ∧ render ((d :: next).map Msg.element ++ [Msg.null]) ≠ render [Msg.listIsEmpty])
      ∧ (print_list [] s).out = s.out ++ [Msg.listIsEmpty]
      ∧ render [Msg.listIsEmpty] = "List is empty.\n"
      ∧ (∀ node : List Int,
          (print_list node s).head = s.head ∧ (print_list node s).undoStack = s.undoStack)
      ∧ render (print_list [10, 20, -30] State.initial).out = "10 -> 20 -> -30 -> NULL\n" := by
  have hfmt : ∀ node : List Int, render (node.map Msg.element ++ [Msg.null])
      = String.join (node.map (fun x => toString x ++ " -> ")) ++ "NULL\n" := by
    intro node
    rw [render_append]
    congr 1
    rw [render_eq_join, List.map_map]
    rfl
  refine ⟨?_, rfl, rfl, ?_, by decide⟩
  · intro d next
    refine ⟨?_, hfmt (d :: next), ?_⟩
    · simp [print_list, print_list_loop_eq]
    · rw [hfmt]
      exact ends_in_null_ne_list_is_empty _
  · intro node
    cases node <;> exact ⟨rfl, rfl⟩

/-! ## Facts about the menu loop -/

@[simp] theorem print_list_head (node : List Int) (s : State) :
    (print_list node s).head = s.head := by
  cases node <;> rfl

@[simp] theorem print_list_undoStack (node : List Int) (s : State) :
    (print_list node s).undoStack = s.undoStack := by
  cases node <;> rfl

@[simp] theorem print_list_exit_status (node : List Int) (s : State) :
    (print_list node s).exit_status = s.exit_status := by
  cases node <;> rfl

@[simp] theorem pop_stack_exit_status (s : State) :
    (pop_stack s).exit_status = s.exit_status := by
  unfold pop_stack; split <;> rfl

/-- A pass with choice 7 is `pop_stack` after the menu has been printed. -/
theorem main_step_undo (u : MenuInput) (hu : u.choice = 7) (s : State) :
    main_step u s = pop_stack (s.print Msg.menu) := by
  simp [main_step, hu]

/-- Only choice 8 ends the run. -/
theorem main_step_exit_status (i : MenuInput) (hi : i.choice ≠ 8) (s : State) :
    (main_step i s).exit_status = s.exit_status := by
  unfold main_step
  dsimp only
  split_ifs <;> simp

/-- Entries of the undo stack after one pass: old entries, or the list the pass
started from when the choice is one of 1 to 5. -/
theorem main_step_undoStack_mem (i : MenuInput) (s : State) (e : List Int)
    (he : e ∈ (main_step i s).undoStack) :
    e ∈ s.undoStack ∨ (i.mutating ∧ e = s.head) := by
  by_cases hm : i.mutating
  · rw [(main_step_mutating i hm s).1] at he
    rcases List.mem_cons.mp he with h | h
    · exact Or.inr ⟨hm, h⟩
    · exact Or.inl h
  · left
    unfold main_step at he
    dsimp only at he
    unfold MenuInput.mutating at hm
    split_ifs at he with h1 h2 h3 h4 h5 h6 h7 h8
    · omega
    · omega
    · omega
    · omega
    · omega
    · simpa using he
    · unfold pop_stack at he
      simp only [print_undoStack] at he
      split at he
      · simpa using he
      · rename_i snapshot next heq
        rw [heq]
        exact List.mem_cons_of_mem _ (by simpa using he)
    · simp at he
    · simpa using he

/-- Running a longer input is running its first part and then, when that did not
exit, the rest. -/
theorem main_loop_append (xs ys : List MenuInput) (s : State)
    (h : (main_loop xs s).exit_status = none) :
    main_loop (xs ++ ys) s = main_loop ys (main_loop xs s) := by
  induction xs generalizing s with
  | nil => rfl
  | cons i rest ih =>
      simp only [main_loop, List.cons_append] at h ⊢
      cases hex : (main_step i s).exit_status with
      | none =>
          rw [hex] at h
          simp only at h ⊢
          exact ih _ h
      | some c =>
          rw [hex] at h
          simp only at h
          rw [hex] at h
          exact absurd h (by simp)

/-- Once a run has exited, further input is not read. -/
theorem main_loop_append_exited (xs ys : List MenuInput) (s : State)
    (hs : s.exit_status = none) (c : Int) (h : (main_loop xs s).exit_status = some c) :
    main_loop (xs ++ ys) s = main_loop xs s := by
  induction xs generalizing s with
  | nil =>
      simp only [main_loop] at h
      rw [hs] at h
      exact absurd h (by simp)
  | cons i rest ih =>
      simp only [main_loop, List.cons_append] at h ⊢
      cases hex : (main_step i s).exit_status with
      | none =>
          rw [hex] at h
          simp only at h ⊢
          exact ih _ hex h
      | some c2 => rfl

/-- One more pass at the end of a run that has not exited. -/
theorem main_loop_snoc (xs : List MenuInput) (a : MenuInput) (s : State)
    (h : (main_loop xs s).exit_status = none) :
    main_loop (xs ++ [a]) s = main_step a (main_loop xs s) := by
  rw [main_loop_append xs [a] s h]
  simp only [main_loop]
  split <;> rfl

/-- A run without choice 8 does not exit. -/
theorem main_loop_running (acts : List MenuInput) (hacts : ∀ i ∈ acts, i.choice ≠ 8)
    (s : State) (hs : s.exit_status = none) : (main_loop acts s).exit_status = none := by
  induction acts generalizing s with
  | nil => exact hs
  | cons i rest ih =>
      have hi : (main_step i s).exit_status = none := by
        rw [main_step_exit_status i (hacts i (List.mem_cons_self _ _)) s, hs]
      simp only [main_loop, hi]
      exact ih (fun j hj => hacts j (List.mem_cons_of_mem _ hj)) _ hi

theorem mutating_choice_ne_exit (i : MenuInput) (hi : i.mutating) : i.choice ≠ 8 := by
  unfold MenuInput.mutating at hi
  omega

/-! ## History kept on the undo stack -/

/-- C15 (snapshot history): after any menu input run from the initial state,
every entry of the undo stack is the list that was live just before one of the
passes with a choice from 1 to 5; and after input made only of such passes the
stack, read from the bottom, lists the live list before the first, second, ...
pass, so its bottom entry is the empty list. -/
theorem snapshot_history :
    (∀ acts : List MenuInput, ∀ e ∈ (main_loop acts State.initial).undoStack,
        ∃ j a, acts[j]? = some a ∧ a.mutating
          ∧ e = (main_loop (acts.take j) State.initial).head)
      ∧ (∀ acts : List MenuInput, (∀ i ∈ acts, i.mutating) →
          (main_loop acts State.initial).undoStack.reverse
              = (List.range acts.length).map
                  (fun j => (main_loop (acts.take j) State.initial).head)
            ∧ (acts ≠ [] →
                (main_loop acts State.initial).undoStack.getLast? = some [])) := by
  constructor
  · intro acts
    induction acts using List.reverseRecOn with
    | nil => intro e he; simp [main_loop, State.initial] at he
    | append_singleton acts a ih =>
        intro e he
        have hold : e ∈ (main_loop acts State.initial).undoStack →
            ∃ j b, (acts ++ [a])[j]? = some b ∧ b.mutating
              ∧ e = (main_loop ((acts ++ [a]).take j) State.initial).head := by
          intro h
          obtain ⟨j, b, hj, hb, hjeq⟩ := ih e h
          have hlt : j < acts.length := (List.getElem?_eq_some_iff.mp hj).1
          refine ⟨j, b, ?_, hb, ?_⟩
          · rw [List.getElem?_append_left hlt]; exact hj
          · rw [List.take_append_of_le_length (le_of_lt hlt)]; exact hjeq
        cases hex : (main_loop acts State.initial).exit_status with
        | some c =>
            rw [main_loop_append_exited acts [a] State.initial rfl c hex] at he
            exact hold he
        | none =>
            rw [main_loop_snoc acts a State.initial hex] at he
            rcases main_step_undoStack_mem a _ e he with h | ⟨hm, h⟩
            · exact hold h
            · refine ⟨acts.length, a, by simp, hm, ?_⟩
              rw [List.take_left']
              · exact h
              · rfl
  · intro acts
    have hmain : (∀ i ∈ acts, i.mutating) →
        (main_loop acts State.initial).undoStack.reverse
          = (List.range acts.length).map
              (fun j => (main_loop (acts.take j) State.initial).head) := by
      induction acts using List.reverseRecOn with
      | nil => intro _; simp [main_loop, State.initial]
      | append_singleton acts a ih =>
          intro hall
          have hacts : ∀ i ∈ acts, i.mutating :=
            fun i hi => hall i (List.mem_append_left _ hi)
          have ha : a.mutating := hall a (by simp)
          have hex : (main_loop acts State.initial).exit_status = none :=
            main_loop_running acts (fun i hi => mutating_choice_ne_exit i (hacts i hi))
              State.initial rfl
          rw [main_loop_snoc acts a State.initial hex, (main_step_mutating a ha _).1,
            List.reverse_cons, ih hacts, List.length_append, List.length_singleton,
            List.range_succ, List.map_append]
          congr 1
          · apply List.map_congr_left
            intro j hj
            rw [List.take_append_of_le_length (le_of_lt (List.mem_range.mp hj))]
          · simp
    intro hall
    refine ⟨hmain hall, ?_⟩
    intro hne
    have hrev := hmain hall
    have hpos : 0 < acts.length := List.length_pos.mpr hne
    rw [List.getLast?_eq_head?_reverse, hrev]
    obtain ⟨n, hn⟩ : ∃ n, acts.length = n + 1 := ⟨acts.length - 1, by omega⟩
    rw [hn, List.range_succ_eq_map]
    simp [main_loop, State.initial]

/-- Instance of C15: three insertions, then the stack from the bottom is
`[]`, `[5]`, `[5, 6]`. -/
theorem snapshot_history_witness :
    (main_loop [⟨1, 5, 0⟩, ⟨1, 6, 0⟩, ⟨4, 7, 0⟩] State.initial).undoStack.reverse
        = (List.range 3).map
            (fun j => (main_loop (([⟨1, 5, 0⟩, ⟨1, 6, 0⟩, ⟨4, 7, 0⟩] : List MenuInput).take j)
              State.initial).head)
      ∧ (main_loop [⟨1, 5, 0⟩, ⟨1, 6, 0⟩, ⟨4, 7, 0⟩] State.initial).undoStack
          = [[5, 6], [5], []] :=
  ⟨(snapshot_history.2 [⟨1, 5, 0⟩, ⟨1, 6, 0⟩, ⟨4, 7, 0⟩] (by decide)).1, by decide⟩

/-! ## Depth of the undo stack -/

/-- Printing anything but the nothing-to-undo message leaves the number of such
messages as it was. -/
theorem count_print (s : State) (m : Msg) (hm : m ≠ Msg.noOperationsToUndo) :
    (s.print m).out.count Msg.noOperationsToUndo = s.out.count Msg.noOperationsToUndo := by
  simp [State.print, List.count_append, List.count_cons, hm]

theorem insert_end_out (data : Int) (s : State) :
    (insert_end data s).out = s.out := by
  unfold insert_end; split <;> rfl

theorem count_insert_after (position data : Int) (s : State) :
    (insert_after position data s).out.count Msg.noOperationsToUndo
      = s.out.count Msg.noOperationsToUndo := by
  unfold insert_after
  dsimp only
  split
  · split
    · rfl
    · exact count_print s _ (by simp)
  · split
    · exact count_print s _ (by simp)
    · rfl

theorem count_insert_before (position data : Int) (s : State) :
    (insert_before position data s).out.count Msg.noOperationsToUndo
      = s.out.count Msg.noOperationsToUndo := by
  unfold insert_before
  dsimp only
  split
  · exact count_print s _ (by simp)
  · split
    · rfl
    · split
      · exact count_print s _ (by simp)
      · rfl

theorem count_edit_node (old_value new_value : Int) (s : State) :
    (edit_node old_value new_value s).out.count Msg.noOperationsToUndo
      = s.out.count Msg.noOperationsToUndo := by
  unfold edit_node
  split
  · rfl
  · exact count_print s _ (by simp)

theorem count_print_list (node : List Int) (s : State) :
    (print_list node s).out.count Msg.noOperationsToUndo
      = s.out.count Msg.noOperationsToUndo := by
  cases node with
  | nil => exact count_print s _ (by simp)
  | cons d next =>
      have hzero : ∀ l : List Int, (l.map Msg.element).count Msg.noOperationsToUndo = 0 := by
        intro l
        induction l with
        | nil => rfl
        | cons x t ih => simp [List.count_cons, ih]
      simp [print_list, print_list_loop_eq, List.count_append, List.count_cons, hzero]

/-- An undo removes one entry or prints the nothing-to-undo message. -/
theorem pop_stack_depth (s : State) :
    (pop_stack s).undoStack.length + 1 + s.out.count Msg.noOperationsToUndo
      = s.undoStack.length + (pop_stack s).out.count Msg.noOperationsToUndo := by
  unfold pop_stack
  split
  · rename_i heq
    simp [heq, State.print, List.count_append, List.count_cons]
    omega
  · rename_i snapshot next heq
    simp [heq]

/-- Bookkeeping of one pass that is not an exit: a choice from 1 to 5 adds an
entry, choice 7 removes one or prints the nothing-to-undo message, and every
other choice does neither. -/
theorem main_step_depth (i : MenuInput) (hi : i.choice ≠ 8) (s : State) :
    (main_step i s).undoStack.length + (if i.choice = 7 then 1 else 0)
        + s.out.count Msg.noOperationsToUndo
      = s.undoStack.length + (if 1 ≤ i.choice ∧ i.choice ≤ 5 then 1 else 0)
        + (main_step i s).out.count Msg.noOperationsToUndo := by
  unfold main_step
  dsimp only
  split_ifs with h1 h2 h3 h4 h5 h6 h7 h8 h9 h10 h11 h12 h13 h14 h15 h16 h17 h18 <;>
    first
      | omega
      | (simp [insert_end_out, count_insert_after, count_insert_before, count_edit_node,
          count_print_list, insert_begin, push_stack, List.count_append, List.count_cons]; done)
      | (simp [insert_end_out, count_insert_after, count_insert_before, count_edit_node,
          count_print_list, insert_begin, push_stack, List.count_append, List.count_cons]
         omega)
      | (have hpop := pop_stack_depth (s.print Msg.menu)
         rw [count_print s Msg.menu (by simp)] at hpop
         simp only [print_undoStack] at hpop
         omega)

/-- Bookkeeping of a run without exit, from a state that has not exited. -/
theorem main_loop_depth (acts : List MenuInput) (hacts : ∀ i ∈ acts, i.choice ≠ 8) :
    ∀ s : State, s.exit_status = none →
      (main_loop acts s).undoStack.length + acts.countP (fun i => decide (i.choice = 7))
          + s.out.count Msg.noOperationsToUndo
        = s.undoStack.length + acts.countP (fun i => decide i.mutating)
          + (main_loop acts s).out.count Msg.noOperationsToUndo := by
  induction acts with
  | nil => intro s _; simp [main_loop]
  | cons i rest ih =>
      intro s hs
      have hi : i.choice ≠ 8 := hacts i (List.mem_cons_self _ _)
      have hex : (main_step i s).exit_status = none := by
        rw [main_step_exit_status i hi s, hs]
      have hstep := main_step_depth i hi s
      have hrest := ih (fun j hj => hacts j (List.mem_cons_of_mem _ hj)) (main_step i s) hex
      simp only [main_loop, hex, List.countP_cons, decide_eq_true_eq, MenuInput.mutating]
        at hrest ⊢
      omega

/-- C16, the claim as stated fails: an undo on the empty stack followed by one
insertion leaves depth 1 although one mutating and one undo action were
performed; and an insertion followed by exit leaves depth 0. -/
theorem depth_accounting_counterexample :
    (main_loop [⟨7, 0, 0⟩, ⟨1, 5, 0⟩] State.initial).undoStack.length = 1
      ∧ List.countP (fun i : MenuInput => decide i.mutating) [⟨7, 0, 0⟩, ⟨1, 5, 0⟩] = 1
      ∧ List.countP (fun i : MenuInput => decide (i.choice = 7)) [⟨7, 0, 0⟩, ⟨1, 5, 0⟩] = 1
      ∧ ((main_loop [⟨7, 0, 0⟩, ⟨1, 5, 0⟩] State.initial).undoStack.length : Int)
          ≠ (List.countP (fun i : MenuInput => decide i.mutating) [⟨7, 0, 0⟩, ⟨1, 5, 0⟩] : Int)
            - (List.countP (fun i : MenuInput => decide (i.choice = 7))
                [⟨7, 0, 0⟩, ⟨1, 5, 0⟩] : Int)
      ∧ ((main_loop [⟨1, 5, 0⟩, ⟨8, 0, 0⟩] State.initial).undoStack.length : Int)
          ≠ (List.countP (fun i : MenuInput => decide i.mutating) [⟨1, 5, 0⟩, ⟨8, 0, 0⟩] : Int)
            - (List.countP (fun i : MenuInput => decide (i.choice = 7))
                [⟨1, 5, 0⟩, ⟨8, 0, 0⟩] : Int) := by
  decide

/-- C16 as amended (depth accounting across interleaved undos): after any menu
input without exit run from the initial state, the depth of the undo stack is
the number of passes with a choice from 1 to 5 minus the number of undo passes
that found a non-empty stack, that is, the undo passes other than those that
printed the nothing-to-undo message; when no undo met an empty stack this is
the number of mutating passes minus the number of undo passes. -/
theorem depth_accounting (acts : List MenuInput) (hacts : ∀ i ∈ acts, i.choice ≠ 8) :
    ((main_loop acts State.initial).undoStack.length : Int)
        = (acts.countP (fun i => decide i.mutating) : Int)
          - ((acts.countP (fun i => decide (i.choice = 7)) : Int)
              - ((main_loop acts State.initial).out.count Msg.noOperationsToUndo : Int))
      ∧ (main_loop acts State.initial).out.count Msg.noOperationsToUndo
          ≤ acts.countP (fun i => decide (i.choice = 7))
      ∧ ((main_loop acts State.initial).out.count Msg.noOperationsToUndo = 0 →
          ((main_loop acts State.initial).undoStack.length : Int)
            = (acts.countP (fun i => decide i.mutating) : Int)
              - (acts.countP (fun i => decide (i.choice = 7)) : Int)) := by
  have h := main_loop_depth acts hacts State.initial rfl
  have hd0 : State.initial.undoStack.length = 0 := rfl
  have hc0 : State.initial.out.count Msg.noOperationsToUndo = 0 := rfl
  rw [hd0, hc0] at h
  have hle : ∀ (l : List MenuInput) (s : State), s.exit_status = none →
      (∀ i ∈ l, i.choice ≠ 8) →
      (main_loop l s).out.count Msg.noOperationsToUndo
        ≤ s.out.count Msg.noOperationsToUndo + l.countP (fun i => decide (i.choice = 7)) := by
    intro l
    induction l with
    | nil => intro s _ _; simp [main_loop]
    | cons i rest ih =>
        intro s hs hall
        have hi : i.choice ≠ 8 := hall i (List.mem_cons_self _ _)
        have hex : (main_step i s).exit_status = none := by
          rw [main_step_exit_status i hi s, hs]
        have hstep := main_step_depth i hi s
        have hrest := ih (main_step i s) hex (fun j hj => hall j (List.mem_cons_of_mem _ hj))
        have hm := main_step_undoStack_mem i s
        simp only [main_loop, hex, List.countP_cons, decide_eq_true_eq]
        by_cases h7 : i.choice = 7
        · have hnm : ¬ (1 ≤ i.choice ∧ i.choice ≤ 5) := by omega
          simp only [h7, hnm, if_true, if_false] at hstep ⊢
          have hpop : (main_step i s).undoStack.length ≤ s.undoStack.length := by
            rw [main_step_undo i h7 s]
            unfold pop_stack
            split
            · rename_i heq; simp [heq]
            · rename_i snapshot next heq
              simp only [print_undoStack] at heq
              simp [heq]
          omega
        · by_cases hmut : 1 ≤ i.choice ∧ i.choice ≤ 5
          · have hlen := congrArg List.length (main_step_mutating i hmut s).1
            simp only [List.length_cons] at hlen
            simp only [h7, hmut, and_self, if_true, if_false] at hstep ⊢
            omega
          · have hsame : (main_step i s).undoStack.length = s.undoStack.length := by
              unfold main_step
              dsimp only
              split_ifs <;> first | omega | simp
            simp only [h7, hmut, if_false] at hstep ⊢
            omega
  have hle0 := hle acts State.initial rfl hacts
  rw [hc0, zero_add] at hle0
  refine ⟨by omega, hle0, ?_⟩
  intro h0
  omega

/-- Instance of C16 as amended: an undo on the empty stack, two insertions, an
undo, a print. -/
theorem depth_accounting_witness :
    ((main_loop [⟨7, 0, 0⟩, ⟨1, 5, 0⟩, ⟨4, 6, 0⟩, ⟨7, 0, 0⟩, ⟨6, 0, 0⟩]
          State.initial).undoStack.length : Int)
        = (2 : Int) - ((2 : Int) - (1 : Int))
      ∧ (main_loop [⟨7, 0, 0⟩, ⟨1, 5, 0⟩, ⟨4, 6, 0⟩, ⟨7, 0, 0⟩, ⟨6, 0, 0⟩]
          State.initial).undoStack = [[]] :=
  ⟨(depth_accounting [⟨7, 0, 0⟩, ⟨1, 5, 0⟩, ⟨4, 6, 0⟩, ⟨7, 0, 0⟩, ⟨6, 0, 0⟩] (by decide)).1,
    by decide⟩

/-! ## Runs of mutating passes and undos -/

/-- C17 (multi-step undo round trip): from any state of the running program,
any passes with choices from 1 to 5 followed by as many undo passes lead back
to the list and the undo stack of the starting state. -/
theorem undo_round_trip (acts : List MenuInput) (hacts : ∀ i ∈ acts, i.mutating) :
    ∀ (undos : List MenuInput) (s : State), s.exit_status = none →
      (∀ u ∈ undos, u.choice = 7) → undos.length = acts.length →
      (main_loop (acts ++ undos) s).head = s.head
        ∧ (main_loop (acts ++ undos) s).undoStack = s.undoStack := by
  induction acts with
  | nil =>
      intro undos s _ _ hlen
      have hnil : undos = [] := List.length_eq_zero.mp (by simpa using hlen)
      subst hnil
      exact ⟨rfl, rfl⟩
  | cons a rest ih =>
      intro undos s hs hundos hlen
      have ha : a.mutating := hacts a (List.mem_cons_self _ _)
      have hrest : ∀ i ∈ rest, i.mutating := fun i hi => hacts i (List.mem_cons_of_mem _ hi)
      have hstep := main_step_mutating a ha s
      have hex : (main_step a s).exit_status = none := by rw [hstep.2, hs]
      rcases List.eq_nil_or_concat undos with hnil | ⟨front, u, hundos_eq⟩
      · subst hnil
        simp at hlen
      · rw [List.concat_eq_append] at hundos_eq
        subst hundos_eq
        have hfront : ∀ v ∈ front, v.choice = 7 :=
          fun v hv => hundos v (List.mem_append_left _ hv)
        have hu : u.choice = 7 := hundos u (by simp)
        have hlen2 : front.length = rest.length := by simpa using hlen
        have hih := ih hrest front (main_step a s) hex hfront hlen2
        have hrun : (main_loop (rest ++ front) (main_step a s)).exit_status = none := by
          apply main_loop_running _ _ _ hex
          intro j hj
          rcases List.mem_append.mp hj with h | h
          · exact mutating_choice_ne_exit j (hrest j h)
          · rw [hfront j h]; decide
        have hrw : main_loop (a :: rest ++ (front ++ [u])) s
            = main_step u (main_loop (rest ++ front) (main_step a s)) := by
          have hlist : a :: rest ++ (front ++ [u]) = a :: ((rest ++ front) ++ [u]) := by
            simp
          rw [hlist, ← main_loop_snoc (rest ++ front) u (main_step a s) hrun]
          simp only [main_loop, hex]
        rw [hrw, main_step_undo u hu]
        have hstack : ((main_loop (rest ++ front) (main_step a s)).print Msg.menu).undoStack
            = s.head :: s.undoStack := by
          rw [print_undoStack, hih.2, hstep.1]
        rw [pop_stack_cons _ _ _ hstack]
        exact ⟨rfl, rfl⟩

/-- Instance of C17: three passes (an insertion, a refused insertion, an edit)
and three undos, above one earlier snapshot. -/
theorem undo_round_trip_witness :
    (main_loop ([⟨1, 5, 0⟩, ⟨2, 7, 6⟩, ⟨5, 5, 8⟩] ++ [⟨7, 0, 0⟩, ⟨7, 0, 0⟩, ⟨7, 0, 0⟩])
          ⟨[1, 2], [[1]], [], none⟩).head = [1, 2]
      ∧ (main_loop ([⟨1, 5, 0⟩, ⟨2, 7, 6⟩, ⟨5, 5, 8⟩] ++ [⟨7, 0, 0⟩, ⟨7, 0, 0⟩, ⟨7, 0, 0⟩])
          ⟨[1, 2], [[1]], [], none⟩).undoStack = [[1]] :=
  undo_round_trip [⟨1, 5, 0⟩, ⟨2, 7, 6⟩, ⟨5, 5, 8⟩] (by decide)
    [⟨7, 0, 0⟩, ⟨7, 0, 0⟩, ⟨7, 0, 0⟩] ⟨[1, 2], [[1]], [], none⟩ rfl (by decide) rfl

/-! ## Failed operations -/

/-- Each of the five list operations either prints nothing or leaves the list as
it was. -/
theorem mutating_ops_silent_or_unchanged (position data old_value new_value : Int)
    (M : State → State) (hM : M ∈ mutating_ops position data old_value new_value)
    (s : State) : (M s).out = s.out ∨ (M s).head = s.head := by
  simp only [mutating_ops, List.mem_cons, List.mem_singleton, List.not_mem_nil, or_false] at hM
  rcases hM with h | h | h | h | h <;> subst h
  · left; exact insert_end_out data s
  · left; rfl
  · unfold insert_after
    dsimp only
    split
    · split
      · left; rfl
      · right; rfl
    · split
      · right; rfl
      · left; rfl
  · unfold insert_before
    dsimp only
    split
    · right; rfl
    · split
      · left; rfl
      · split
        · right; rfl
        · left; rfl
  · unfold edit_node
    split
    · left; rfl
    · right; rfl

/-- A pass with a choice from 1 to 5 is one of the five operations run after
`push_stack`, in a state whose last printed text is a prompt. -/
theorem main_step_mutating_form (i : MenuInput) (hi : i.mutating) (s : State) :
    ∃ (position data old_value new_value : Int) (M : State → State) (ps : List Msg)
      (t : String),
      M ∈ mutating_ops position data old_value new_value
        ∧ main_step i s = M (push_stack { s with out := s.out ++ ps ++ [Msg.prompt t] }) := by
  obtain ⟨h1, h5⟩ := hi
  have hc : i.choice = 1 ∨ i.choice = 2 ∨ i.choice = 3 ∨ i.choice = 4 ∨ i.choice = 5 := by
    omega
  rcases hc with h | h | h | h | h
  · exact ⟨0, i.first, 0, 0, insert_end i.first, [Msg.menu], "Enter value to insert at end: ",
      by simp [mutating_ops], by simp [main_step, h, State.print]⟩
  · exact ⟨i.first, i.second, 0, 0, insert_after i.first i.second,
      [Msg.menu, Msg.prompt "Enter position to insert after (0-based): "],
      "Enter value to insert: ", by simp [mutating_ops], by simp [main_step, h, State.print]⟩
  · exact ⟨i.first, i.second, 0, 0, insert_before i.first i.second,
      [Msg.menu, Msg.prompt "Enter position to insert before (0-based): "],
      "Enter value to insert: ", by simp [mutating_ops], by simp [main_step, h, State.print]⟩
  · exact ⟨0, i.first, 0, 0, insert_begin i.first, [Msg.menu],
      "Enter value to insert at beginning: ", by simp [mutating_ops],
      by simp [main_step, h, State.print]⟩
  · exact ⟨0, 0, i.first, i.second, edit_node i.first i.second,
      [Msg.menu, Msg.prompt "Enter value to edit: "], "Enter new value: ",
      by simp [mutating_ops], by simp [main_step, h, State.print]⟩

/-- C18 (a failed mutation still consumes an undo slot): when a pass with a
choice from 1 to 5 ends by printing one of the error messages of the list
operations, the list is unchanged, the undo stack has grown by one entry equal
to that list, and an undo pass right after it leaves the list as it is and only
removes that entry. -/
theorem failed_mutation_consumes_slot (s : State) (i u : MenuInput) (hi : i.mutating)
    (hu : u.choice = 7)
    (herr : ∃ q : Int,
      (main_step i s).out.getLast? = some (Msg.listEmptyCantInsert q)
        ∨ (main_step i s).out.getLast? = some (Msg.positionOutOfBounds q)
        ∨ (main_step i s).out.getLast? = some (Msg.invalidPosition q)
        ∨ (main_step i s).out.getLast? = some (Msg.valueNotFound q)) :
    (main_step i s).head = s.head
      ∧ (main_step i s).undoStack = s.head :: s.undoStack
      ∧ (main_step u (main_step i s)).head = s.head
      ∧ (main_step u (main_step i s)).undoStack = s.undoStack := by
  have hstack := (main_step_mutating i hi s).1
  have hhead : (main_step i s).head = s.head := by
    obtain ⟨position, data, old_value, new_value, M, ps, t, hM, hform⟩ :=
      main_step_mutating_form i hi s
    rcases mutating_ops_silent_or_unchanged position data old_value new_value M hM
      (push_stack { s with out := s.out ++ ps ++ [Msg.prompt t] }) with hsilent | hsame
    · exfalso
      rw [hform, hsilent] at herr
      simp [push_stack] at herr
    · rw [hform, hsame]
      rfl
  refine ⟨hhead, hstack, ?_, ?_⟩
  · rw [main_step_undo u hu, pop_stack_cons _ s.head s.undoStack (by simpa using hstack)]
  · rw [main_step_undo u hu, pop_stack_cons _ s.head s.undoStack (by simpa using hstack)]

/-- Instance of C18: after a successful insertion of 1, `insert_after(5, 9)` is
refused; the undo that follows keeps `[1]` and only drops the entry pushed for
the refused call. -/
theorem failed_mutation_consumes_slot_witness :
    (main_step ⟨2, 5, 9⟩ ⟨[1], [[]], [], none⟩).head = [1]
      ∧ (main_step ⟨2, 5, 9⟩ ⟨[1], [[]], [], none⟩).undoStack = [1] :: [[]]
      ∧ (main_step ⟨7, 0, 0⟩ (main_step ⟨2, 5, 9⟩ ⟨[1], [[]], [], none⟩)).head = [1]
      ∧ (main_step ⟨7, 0, 0⟩ (main_step ⟨2, 5, 9⟩ ⟨[1], [[]], [], none⟩)).undoStack = [[]] :=
  failed_mutation_consumes_slot ⟨[1], [[]], [], none⟩ ⟨2, 5, 9⟩ ⟨7, 0, 0⟩ (by decide) rfl
    ⟨5, Or.inr (Or.inl (by decide))⟩

/-! ## Memory: loads after stores, allocations and frees -/

theorem read_bounds {h : Heap} {p : Nat} {n : Node} (hr : h.read p = some n) :
    1 ≤ p ∧ p ≤ h.cells.length := by
  cases p with
  | zero => simp [Heap.read] at hr
  | succ a =>
      simp only [Heap.read] at hr
      constructor
      · omega
      · by_contra hlt
        have hnone : h.cells[a]? = none := List.getElem?_eq_none (by omega)
        rw [hnone] at hr
        simp at hr

theorem read_store (h : Heap) (p : Nat) (c : Option Node) (a : Nat)
    (hp1 : 1 ≤ p) (hp2 : p ≤ h.cells.length) :
    (h.store p c).read a = if a = p then c else h.read a := by
  cases a with
  | zero =>
      have hne : ¬ (0 = p) := by omega
      simp [Heap.read, hne]
  | succ b =>
      simp only [Heap.read, Heap.store]
      by_cases hb : b + 1 = p
      · subst hb
        simp only [if_true, Nat.add_sub_cancel]
        rw [List.getElem?_set_self (by omega)]
        rfl
      · simp only [hb, if_false]
        rw [List.getElem?_set_ne (by omega)]

theorem length_store (h : Heap) (p : Nat) (c : Option Node) :
    (h.store p c).cells.length = h.cells.length := by
  simp [Heap.store]

theorem read_malloc (h : Heap) (n : Node) (a : Nat) :
    (h.malloc n).1.read a = if a = h.cells.length + 1 then some n else h.read a := by
  cases a with
  | zero => simp [Heap.read]
  | succ b =>
      simp only [Heap.read, Heap.malloc]
      by_cases hb : b = h.cells.length
      · subst hb
        simp
      · have hne : ¬ (b + 1 = h.cells.length + 1) := by omega
        simp only [hne, if_false]
        by_cases hlt : b < h.cells.length
        · rw [List.getElem?_append_left hlt]
        · rw [List.getElem?_eq_none (by simp; omega), List.getElem?_eq_none (by omega)]

theorem length_malloc (h : Heap) (n : Node) :
    (h.malloc n).1.cells.length = h.cells.length + 1 := by
  simp [Heap.malloc]

theorem set_next_eq {h : Heap} {p : Nat} {n : Node} (hr : h.read p = some n) (q : Nat) :
    h.set_next p q = some (h.store p (some ⟨n.data, q⟩)) := by
  simp [Heap.set_next, hr]

theorem set_data_eq {h : Heap} {p : Nat} {n : Node} (hr : h.read p = some n) (d : Int) :
    h.set_data p d = some (h.store p (some ⟨d, n.next⟩)) := by
  simp [Heap.set_data, hr]

theorem free_eq {h : Heap} {p : Nat} {n : Node} (hr : h.read p = some n) :
    h.free p = some (h.store p none) := by
  simp [Heap.free, hr]

/-! ## Chains in memory -/

theorem seg_nil (h : Heap) (p q : Nat) : Seg h p [] q ↔ p = q := Iff.rfl

theorem seg_cons (h : Heap) (p q : Nat) (c : Nat × Int) (cs : List (Nat × Int)) :
    Seg h p (c :: cs) q ↔ p = c.1 ∧ ∃ nx, h.read c.1 = some ⟨c.2, nx⟩ ∧ Seg h nx cs q :=
  Iff.rfl

/-- A segment only depends on the cells it visits. -/
theorem seg_frame {h h2 : Heap} {cs : List (Nat × Int)} :
    ∀ {p q : Nat}, Seg h p cs q → (∀ a ∈ cs.map Prod.fst, h2.read a = h.read a) →
      Seg h2 p cs q := by
  induction cs with
  | nil => intro p q hseg _; exact hseg
  | cons c cs ih =>
      intro p q hseg hsame
      obtain ⟨hp, nx, hr, hrest⟩ := hseg
      refine ⟨hp, nx, ?_, ih hrest (fun a ha => hsame a (by simp [ha]))⟩
      rw [hsame c.1 (by simp)]
      exact hr

/-- Every node of a segment is inside the allocated range. -/
theorem seg_bounds {h : Heap} {cs : List (Nat × Int)} :
    ∀ {p q : Nat}, Seg h p cs q → ∀ a ∈ cs.map Prod.fst, 1 ≤ a ∧ a ≤ h.cells.length := by
  induction cs with
  | nil => intro p q _ a ha; simp at ha
  | cons c cs ih =>
      intro p q hseg a ha
      obtain ⟨-, nx, hr, hrest⟩ := hseg
      simp only [List.map_cons, List.mem_cons] at ha
      rcases ha with h1 | h1
      · rw [h1]; exact read_bounds hr
      · exact ih hrest a h1

theorem seg_append {h : Heap} {cs1 cs2 : List (Nat × Int)} :
    ∀ {p q : Nat}, Seg h p (cs1 ++ cs2) q ↔ ∃ r, Seg h p cs1 r ∧ Seg h r cs2 q := by
  induction cs1 with
  | nil =>
      intro p q
      constructor
      · intro hseg; exact ⟨p, rfl, hseg⟩
      · rintro ⟨r, hr, hseg⟩
        rw [seg_nil] at hr
        subst hr
        exact hseg
  | cons c cs ih =>
      intro p q
      constructor
      · rintro ⟨hp, nx, hr, hrest⟩
        obtain ⟨r, h1, h2⟩ := ih.mp hrest
        exact ⟨r, ⟨hp, nx, hr, h1⟩, h2⟩
      · rintro ⟨r, ⟨hp, nx, hr, h1⟩, h2⟩
        exact ⟨hp, nx, hr, ih.mpr ⟨r, h1, h2⟩⟩

/-- A chain from `NULL` has no node. -/
theorem chain_null {h : Heap} {cs : List (Nat × Int)} (hc : Chain h 0 cs) : cs = [] := by
  cases cs with
  | nil => rfl
  | cons c cs =>
      obtain ⟨hp, nx, hr, -⟩ := hc
      rw [← hp] at hr
      simp [Heap.read] at hr

/-- The chain hanging from a pointer is determined by the memory. -/
theorem chain_unique {h : Heap} {cs1 : List (Nat × Int)} :
    ∀ {p : Nat} {cs2 : List (Nat × Int)}, Chain h p cs1 → Chain h p cs2 → cs1 = cs2 := by
  induction cs1 with
  | nil =>
      intro p cs2 h1 h2
      have hp : p = 0 := h1
      subst hp
      exact (chain_null h2).symm
  | cons c cs ih =>
      intro p cs2 h1 h2
      obtain ⟨hp, nx, hr, hrest⟩ := h1
      cases cs2 with
      | nil =>
          have hp0 : p = 0 := h2
          rw [hp0] at hp
          rw [← hp] at hr
          simp [Heap.read] at hr
      | cons c2 cs2 =>
          obtain ⟨hp2, nx2, hr2, hrest2⟩ := h2
          have hc1 : c.1 = c2.1 := by rw [← hp, ← hp2]
          rw [hc1] at hr
          rw [hr] at hr2
          simp only [Option.some.injEq, Node.mk.injEq] at hr2
          obtain ⟨hd, hn⟩ := hr2
          have hcs : cs = cs2 := ih hrest (hn ▸ hrest2)
          rw [hcs]
          congr 1
          exact Prod.ext hc1 hd

theorem holds_unique {h : Heap} {p : Nat} {xs ys : List Int}
    (h1 : Holds h p xs) (h2 : Holds h p ys) : xs = ys := by
  obtain ⟨cs1, hc1, rfl⟩ := h1
  obtain ⟨cs2, hc2, rfl⟩ := h2
  rw [chain_unique hc1 hc2]

/-- Distinct addresses inside the allocated range are no more than the cells. -/
theorem nodup_length_le (l : List Nat) (n : Nat) (hnd : l.Nodup)
    (hb : ∀ a ∈ l, 1 ≤ a ∧ a ≤ n) : l.length ≤ n := by
  have hsub : l.toFinset ⊆ Finset.Icc 1 n := by
    intro a ha
    rw [List.mem_toFinset] at ha
    exact Finset.mem_Icc.mpr (hb a ha)
  have hcard := Finset.card_le_card hsub
  rw [List.toFinset_card_of_nodup hnd] at hcard
  simpa using hcard

theorem chain_length_le {h : Heap} {p : Nat} {cs : List (Nat × Int)} (hc : Chain h p cs)
    (hnd : (cs.map Prod.fst).Nodup) : cs.length ≤ h.cells.length := by
  have hle := nodup_length_le (cs.map Prod.fst) h.cells.length hnd (seg_bounds hc)
  simpa using hle

/-! ## Keeping the representation -/

theorem snaps_frame {h h2 : Heap} {ps : List Nat} {snaps : List (List (Nat × Int))}
    (hs : List.Forall₂ (Chain h) ps snaps)
    (hsame : ∀ a ∈ (snaps.map (List.map Prod.fst)).flatten, h2.read a = h.read a) :
    List.Forall₂ (Chain h2) ps snaps := by
  induction hs with
  | nil => exact List.Forall₂.nil
  | cons hc _ ih =>
      refine List.Forall₂.cons (seg_frame hc (fun a ha => hsame a ?_)) (ih (fun a ha => hsame a ?_))
      · simp only [List.map_cons, List.flatten_cons, List.mem_append]
        exact Or.inl ha
      · simp only [List.map_cons, List.flatten_cons, List.mem_append]
        exact Or.inr ha

theorem snaps_bounds {h : Heap} {ps : List Nat} {snaps : List (List (Nat × Int))}
    (hs : List.Forall₂ (Chain h) ps snaps) :
    ∀ a ∈ (snaps.map (List.map Prod.fst)).flatten, 1 ≤ a ∧ a ≤ h.cells.length := by
  induction hs with
  | nil => intro a ha; simp at ha
  | cons hc _ ih =>
      intro a ha
      simp only [List.map_cons, List.flatten_cons, List.mem_append] at ha
      rcases ha with h1 | h1
      · exact seg_bounds hc a h1
      · exact ih a h1

/-- Replacing the live chain: when the new memory agrees with the old one
outside the old live chain, and the new live chain uses only nodes of the old
one or nodes allocated since, the snapshots are still represented. -/
theorem represents_update {m : Mem} {s : State} {live : List (Nat × Int)}
    {snaps : List (List (Nat × Int))}
    (hsn : List.Forall₂ (Chain m.heap) m.undoStack snaps)
    (hst : snaps.map (List.map Prod.snd) = s.undoStack)
    (hnd : (live.map Prod.fst ++ (snaps.map (List.map Prod.fst)).flatten).Nodup)
    (h2 : Heap) (head2 : Nat) (live2 : List (Nat × Int)) (out2 : List Msg)
    (hframe : ∀ a, a ≤ m.heap.cells.length → a ∉ live.map Prod.fst →
      h2.read a = m.heap.read a)
    (hlive2 : Chain h2 head2 live2)
    (hfp : ∀ a ∈ live2.map Prod.fst, a ∈ live.map Prod.fst ∨ m.heap.cells.length < a)
    (hnd2 : (live2.map Prod.fst).Nodup) :
    Represents ⟨h2, head2, m.undoStack, out2⟩
      ⟨live2.map Prod.snd, s.undoStack, out2, s.exit_status⟩ := by
  obtain ⟨-, hnds, hdisj⟩ := List.nodup_append.mp hnd
  have hb := snaps_bounds hsn
  refine ⟨live2, snaps, hlive2, rfl, ?_, hst, ?_, rfl⟩
  · apply snaps_frame hsn
    intro a ha
    exact hframe a (hb a ha).2 (fun hl => hdisj hl ha)
  · refine List.nodup_append.mpr ⟨hnd2, hnds, ?_⟩
    intro a ha1 ha2
    rcases hfp a ha1 with hl | hl
    · exact hdisj hl ha2
    · have := (hb a ha2).2
      omega

theorem create_node_snd (h : Heap) (data : Int) :
    (Mem.create_node h data).2 = h.cells.length + 1 := rfl

theorem create_node_length (h : Heap) (data : Int) :
    (Mem.create_node h data).1.cells.length = h.cells.length + 1 := by
  simp [Mem.create_node, length_malloc]

theorem create_node_read (h : Heap) (data : Int) (a : Nat) :
    (Mem.create_node h data).1.read a
      = if a = h.cells.length + 1 then some ⟨data, 0⟩ else h.read a := by
  simp [Mem.create_node, read_malloc]

/-- Linking a node behind a node of a chain: if `new_node` is outside the chain
and its `next` already points at the rest of the chain, then `c->next =
new_node` puts it into the chain right behind `c`. -/
theorem seg_link {h : Heap} {p : Nat} {pre post : List (Nat × Int)} {c : Nat × Int}
    (hc : Chain h p (pre ++ c :: post))
    (hnd : ((pre ++ c :: post).map Prod.fst).Nodup)
    {new_node : Nat} {d : Int} {nx : Nat}
    (hnew : h.read new_node = some ⟨d, nx⟩) (hpost : Chain h nx post)
    (hfresh : new_node ∉ (pre ++ c :: post).map Prod.fst) :
    ∃ h2, h.set_next c.1 new_node = some h2
      ∧ Chain h2 p (pre ++ c :: (new_node, d) :: post)
      ∧ h2.cells.length = h.cells.length
      ∧ (∀ a, a ≠ c.1 → h2.read a = h.read a) := by
  obtain ⟨r, hpre, hr, nxc, hrc, -⟩ := seg_append.mp hc
  have hcb := read_bounds hrc
  refine ⟨h.store c.1 (some ⟨c.2, new_node⟩), set_next_eq hrc new_node, ?_,
    length_store _ _ _, ?_⟩
  · have hsame : ∀ a, a ≠ c.1 → (h.store c.1 (some ⟨c.2, new_node⟩)).read a = h.read a := by
      intro a ha
      rw [read_store h c.1 _ a hcb.1 hcb.2, if_neg ha]
    simp only [List.map_append, List.map_cons, List.nodup_append, List.nodup_cons,
      List.mem_append, List.mem_cons, not_or] at hnd hfresh
    apply seg_append.mpr
    refine ⟨r, seg_frame hpre ?_, hr, new_node, ?_, rfl, nx, ?_, seg_frame hpost ?_⟩
    · intro a ha
      apply hsame
      intro hac
      exact hnd.2.2 ha (by rw [hac]; exact List.mem_cons_self _ _)
    · rw [read_store h c.1 _ c.1 hcb.1 hcb.2, if_pos rfl]
    · show (h.store c.1 (some ⟨c.2, new_node⟩)).read new_node = some ⟨d, nx⟩
      rw [hsame new_node (fun hc2 => hfresh.2.1 hc2)]
      exact hnew
    · intro a ha
      apply hsame
      intro hac
      exact hnd.2.1.1 (by rw [← hac]; exact ha)
  · intro a ha
    rw [read_store h c.1 _ a hcb.1 hcb.2, if_neg ha]

/-- Function `insert_begin` on the memory does what `insert_begin` does. -/
theorem mem_insert_begin (m : Mem) (s : State) (hrep : Represents m s) (data : Int) :
    ∃ m2, Mem.insert_begin data m = some m2 ∧ Represents m2 (insert_begin data s)
      ∧ m2.undoStack = m.undoStack := by
  obtain ⟨live, snaps, hlive, hhead, hsn, hst, hnd, hout⟩ := hrep
  have hlb := seg_bounds hlive
  have hnew : (Mem.create_node m.heap data).1.read (m.heap.cells.length + 1)
      = some ⟨data, 0⟩ := by
    rw [create_node_read, if_pos rfl]
  have hold : ∀ a, a ≤ m.heap.cells.length →
      ((Mem.create_node m.heap data).1.store (m.heap.cells.length + 1)
        (some ⟨data, m.head⟩)).read a = m.heap.read a := by
    intro a ha
    rw [read_store _ _ _ _ (by omega) (by rw [create_node_length]), if_neg (by omega),
      create_node_read, if_neg (by omega)]
  refine ⟨⟨(Mem.create_node m.heap data).1.store (m.heap.cells.length + 1)
      (some ⟨data, m.head⟩), m.heap.cells.length + 1, m.undoStack, m.out⟩, ?_, ?_, rfl⟩
  · simp only [Mem.insert_begin, create_node_snd, set_next_eq hnew]
  · have hrep2 := represents_update hsn hst hnd
      ((Mem.create_node m.heap data).1.store (m.heap.cells.length + 1)
        (some ⟨data, m.head⟩))
      (m.heap.cells.length + 1) ((m.heap.cells.length + 1, data) :: live) m.out
      (fun a ha _ => hold a ha)
      ⟨rfl, m.head, by
          rw [read_store _ _ _ _ (by omega) (by rw [create_node_length]), if_pos rfl],
        seg_frame hlive (fun a ha => hold a (hlb a ha).2)⟩
      (by
        intro a ha
        simp only [List.map_cons, List.mem_cons] at ha
        rcases ha with h1 | h1
        · right; omega
        · left; exact h1)
      (by
        simp only [List.map_cons, List.nodup_cons]
        refine ⟨fun hmem => ?_, (List.nodup_append.mp hnd).1⟩
        have := (hlb _ hmem).2
        omega)
    have hs2 : insert_begin data s
        = ⟨(((m.heap.cells.length + 1, data) :: live) : List (Nat × Int)).map Prod.snd,
            s.undoStack, m.out, s.exit_status⟩ := by
      simp [insert_begin, create_node, hhead, hout]
    rw [hs2]
    exact hrep2

theorem seg_create_node {h : Heap} {cs : List (Nat × Int)} {p q : Nat} (hseg : Seg h p cs q)
    (data : Int) : Seg (Mem.create_node h data).1 p cs q := by
  apply seg_frame hseg
  intro a ha
  have := (seg_bounds hseg a ha).2
  rw [create_node_read, if_neg (by omega)]

/-- The loop of `insert_end` stops at the last node of the chain. -/
theorem mem_insert_end_loop {h : Heap} {c : Nat × Int} {pre : List (Nat × Int)} :
    ∀ {temp fuel : Nat}, Chain h temp (pre ++ [c]) → pre.length < fuel →
      Mem.insert_end_loop fuel h temp = some c.1 := by
  induction pre with
  | nil =>
      intro temp fuel hc hfuel
      obtain ⟨hp, nx, hr, hnx⟩ := hc
      have hnx0 : nx = 0 := hnx
      subst hnx0
      obtain ⟨k, rfl⟩ : ∃ k, fuel = k + 1 := ⟨fuel - 1, by omega⟩
      simp [Mem.insert_end_loop, hp, hr]
  | cons c1 pre ih =>
      intro temp fuel hc hfuel
      obtain ⟨hp, nx, hr, hrest⟩ := hc
      obtain ⟨k, rfl⟩ : ∃ k, fuel = k + 1 := ⟨fuel - 1, by omega⟩
      have hnx : nx ≠ 0 := by
        intro h0
        rw [h0] at hrest
        have := chain_null hrest
        simp at this
      simp only [Mem.insert_end_loop, hp, hr, hnx, if_false]
      exact ih hrest (by simp at hfuel; omega)

/-- Function `insert_end` on the memory does what `insert_end` does. -/
theorem mem_insert_end (m : Mem) (s : State) (hrep : Represents m s) (data : Int) :
    ∃ m2, Mem.insert_end data m = some m2 ∧ Represents m2 (insert_end data s)
      ∧ m2.undoStack = m.undoStack := by
  obtain ⟨live, snaps, hlive, hhead, hsn, hst, hnd, hout⟩ := hrep
  have hlb := seg_bounds hlive
  have hndl := (List.nodup_append.mp hnd).1
  have hlen := chain_length_le hlive hndl
  have hnew : (Mem.create_node m.heap data).1.read (m.heap.cells.length + 1)
      = some ⟨data, 0⟩ := by
    rw [create_node_read, if_pos rfl]
  have hs2 : ∀ live2 : List (Nat × Int), live2.map Prod.snd = live.map Prod.snd ++ [data] →
      insert_end data s = ⟨live2.map Prod.snd, s.undoStack, m.out, s.exit_status⟩ := by
    intro live2 h2
    rw [insert_end_eq, h2, hhead, hout]
  by_cases h0 : m.head = 0
  · have hnil : live = [] := by
      rw [h0] at hlive
      exact chain_null hlive
    subst hnil
    refine ⟨⟨(Mem.create_node m.heap data).1, m.heap.cells.length + 1, m.undoStack, m.out⟩,
      ?_, ?_, rfl⟩
    · simp [Mem.insert_end, h0, create_node_snd]
    · rw [hs2 [(m.heap.cells.length + 1, data)] (by simp)]
      exact represents_update hsn hst hnd _ _ [(m.heap.cells.length + 1, data)] m.out
        (fun a ha _ => by rw [create_node_read, if_neg (by omega)])
        ⟨rfl, 0, hnew, rfl⟩
        (by intro a ha; simp at ha; right; omega)
        (by simp)
  · rcases List.eq_nil_or_concat live with hnil | ⟨pre, c, hlive_eq⟩
    · subst hnil
      exact absurd hlive h0
    · rw [List.concat_eq_append] at hlive_eq
      subst hlive_eq
      have hlive1 := seg_create_node hlive data
      have hloop : Mem.insert_end_loop ((Mem.create_node m.heap data).1.cells.length + 1)
          (Mem.create_node m.heap data).1 m.head = some c.1 :=
        mem_insert_end_loop hlive1 (by
          rw [create_node_length]
          simp at hlen
          omega)
      obtain ⟨h2, hset, hchain2, hlen2, hsame2⟩ := seg_link hlive1 hndl hnew rfl (by
        intro hmem
        have := (hlb _ hmem).2
        omega)
      refine ⟨⟨h2, m.head, m.undoStack, m.out⟩, ?_, ?_, rfl⟩
      · simp [Mem.insert_end, h0, create_node_snd, hloop, hset]
      · rw [hs2 (pre ++ [c, (m.heap.cells.length + 1, data)]) (by simp)]
        refine represents_update hsn hst hnd h2 m.head _ m.out ?_
          (by simpa using hchain2) ?_ ?_
        · intro a ha hnot
          rw [hsame2 a (fun hac => hnot (by rw [hac]; simp)), create_node_read,
            if_neg (by omega)]
        · intro a ha
          simp only [List.map_append, List.map_cons, List.map_nil, List.mem_append,
            List.mem_cons, List.mem_singleton, List.not_mem_nil, or_false] at ha ⊢
          rcases ha with h1 | h1 | h1
          · exact Or.inl (Or.inl h1)
          · exact Or.inl (Or.inr h1)
          · right; omega
        · have hfresh : m.heap.cells.length + 1 ∉ (pre ++ [c]).map Prod.fst := by
            intro hmem
            have := (hlb _ hmem).2
            omega
          have hsplit : (pre ++ [c, (m.heap.cells.length + 1, data)]).map Prod.fst
              = (pre ++ [c]).map Prod.fst ++ [m.heap.cells.length + 1] := by
            simp
          rw [hsplit]
          refine List.nodup_append.mpr ⟨hndl, by simp, ?_⟩
          intro a ha1 ha2
          simp only [List.mem_singleton] at ha2
          rw [ha2] at ha1
          exact hfresh ha1

/-- The walk of `insert_after` and `insert_before` on the memory follows the
walk on the list: it ends at `NULL` when the latter runs off the end, and at
the node behind which the latter links the new node otherwise. -/
theorem mem_walk {h : Heap} (bound : Int) (nn : List Int) :
    ∀ (cs : List (Nat × Int)) (temp : Nat) (index : Int) (fuel : Nat),
      Chain h temp cs → cs.length < fuel →
      (insert_after_loop bound nn (cs.map Prod.snd) index = none →
          Mem.walk fuel h bound temp index = some 0)
        ∧ (∀ l, insert_after_loop bound nn (cs.map Prod.snd) index = some l →
            ∃ pre c post, cs = pre ++ c :: post
              ∧ Mem.walk fuel h bound temp index = some c.1
              ∧ l = pre.map Prod.snd ++ c.2 :: (nn ++ post.map Prod.snd)) := by
  intro cs
  induction cs with
  | nil =>
      intro temp index fuel hc hfuel
      have ht : temp = 0 := hc
      subst ht
      obtain ⟨k, rfl⟩ : ∃ k, fuel = k + 1 := ⟨fuel - 1, by omega⟩
      constructor
      · intro _
        simp [Mem.walk]
      · intro l hl
        simp [insert_after_loop] at hl
  | cons c cs ih =>
      intro temp index fuel hc hfuel
      obtain ⟨hp, nx, hr, hrest⟩ := hc
      obtain ⟨k, rfl⟩ : ∃ k, fuel = k + 1 := ⟨fuel - 1, by omega⟩
      subst hp
      have htemp : c.1 ≠ 0 := by
        have := (read_bounds hr).1
        omega
      have hk : cs.length < k := by simp at hfuel; omega
      obtain ⟨ihnone, ihsome⟩ := ih nx (index + 1) k hrest hk
      by_cases hlt : index < bound
      · have hwalk : Mem.walk (k + 1) h bound c.1 index
            = Mem.walk k h bound nx (index + 1) := by
          simp [Mem.walk, htemp, hlt, hr]
        constructor
        · intro hnone
          simp only [List.map_cons, insert_after_loop, hlt, if_true, Option.map_eq_none'] at hnone
          rw [hwalk]
          exact ihnone hnone
        · intro l hl
          simp only [List.map_cons, insert_after_loop, hlt, if_true, Option.map_eq_some'] at hl
          obtain ⟨l2, hl2, hl⟩ := hl
          obtain ⟨pre, c2, post, hcs, hw, hl2eq⟩ := ihsome l2 hl2
          refine ⟨c :: pre, c2, post, by rw [hcs]; rfl, by rw [hwalk]; exact hw, ?_⟩
          rw [← hl, hl2eq]
          rfl
      · constructor
        · intro hnone
          simp [insert_after_loop, hlt] at hnone
        · intro l hl
          simp only [List.map_cons, insert_after_loop, hlt, if_false, Option.some.injEq] at hl
          refine ⟨[], c, cs, rfl, ?_, ?_⟩
          · simp [Mem.walk, hlt]
          · rw [← hl]
            rfl

/-- The two link assignments put the new node into the chain behind `c`. -/
theorem mem_link_after {h : Heap} {p : Nat} {pre post : List (Nat × Int)} {c : Nat × Int}
    (hc : Chain h p (pre ++ c :: post))
    (hnd : ((pre ++ c :: post).map Prod.fst).Nodup)
    {new_node : Nat} {d : Int} {nx0 : Nat}
    (hnew : h.read new_node = some ⟨d, nx0⟩)
    (hfresh : new_node ∉ (pre ++ c :: post).map Prod.fst) :
    ∃ h2, Mem.link_after h c.1 new_node = some h2
      ∧ Chain h2 p (pre ++ c :: (new_node, d) :: post)
      ∧ h2.cells.length = h.cells.length
      ∧ (∀ a, a ≠ c.1 → a ≠ new_node → h2.read a = h.read a) := by
  obtain ⟨r, hpre, hr, nxc, hrc, hpost⟩ := seg_append.mp hc
  have hnb := read_bounds hnew
  have hsame1 : ∀ a, a ≠ new_node →
      (h.store new_node (some ⟨d, nxc⟩)).read a = h.read a := by
    intro a ha
    rw [read_store h new_node _ a hnb.1 hnb.2, if_neg ha]
  have hnew1 : (h.store new_node (some ⟨d, nxc⟩)).read new_node = some ⟨d, nxc⟩ := by
    rw [read_store h new_node _ new_node hnb.1 hnb.2, if_pos rfl]
  have hc1 : Chain (h.store new_node (some ⟨d, nxc⟩)) p (pre ++ c :: post) := by
    apply seg_frame hc
    intro a ha
    exact hsame1 a (fun hne => hfresh (hne ▸ ha))
  have hpost1 : Chain (h.store new_node (some ⟨d, nxc⟩)) nxc post := by
    apply seg_frame hpost
    intro a ha
    apply hsame1 a
    intro hne
    apply hfresh
    rw [← hne]
    simp only [List.map_append, List.map_cons, List.mem_append, List.mem_cons]
    exact Or.inr (Or.inr ha)
  obtain ⟨h2, hset, hchain2, hlen2, hsame2⟩ := seg_link hc1 hnd hnew1 hpost1 hfresh
  refine ⟨h2, ?_, hchain2, by rw [hlen2, length_store], ?_⟩
  · simp only [Mem.link_after, hrc, set_next_eq hnew]
    exact hset
  · intro a ha1 ha2
    rw [hsame2 a ha1, hsame1 a ha2]

/-- The error exits free the node just created and leave every chain alone. -/
theorem mem_refuse (m : Mem) (s : State) (hrep : Represents m s) (data : Int) (msg : Msg) :
    ∃ m2, Mem.refuse (Mem.create_node m.heap data).1 (Mem.create_node m.heap data).2 msg m
        = some m2
      ∧ Represents m2 (s.print msg) ∧ m2.undoStack = m.undoStack := by
  obtain ⟨live, snaps, hlive, hhead, hsn, hst, hnd, hout⟩ := hrep
  have hlb := seg_bounds hlive
  have hnew : (Mem.create_node m.heap data).1.read (m.heap.cells.length + 1)
      = some ⟨data, 0⟩ := by
    rw [create_node_read, if_pos rfl]
  have hold : ∀ a, a ≤ m.heap.cells.length →
      ((Mem.create_node m.heap data).1.store (m.heap.cells.length + 1) none).read a
        = m.heap.read a := by
    intro a ha
    rw [read_store _ _ _ _ (by omega) (by rw [create_node_length]), if_neg (by omega),
      create_node_read, if_neg (by omega)]
  refine ⟨⟨(Mem.create_node m.heap data).1.store (m.heap.cells.length + 1) none, m.head,
    m.undoStack, m.out ++ [msg]⟩, ?_, ?_, rfl⟩
  · simp only [Mem.refuse, create_node_snd, free_eq hnew]
  · have hrep2 := represents_update hsn hst hnd _ m.head live (m.out ++ [msg])
      (fun a ha _ => hold a ha)
      (seg_frame hlive (fun a ha => hold a (hlb a ha).2))
      (fun a ha => Or.inl ha) (List.nodup_append.mp hnd).1
    have hs2 : s.print msg = ⟨live.map Prod.snd, s.undoStack, m.out ++ [msg], s.exit_status⟩ := by
      simp [State.print, hhead, hout]
    rw [hs2]
    exact hrep2

theorem represents_print (m : Mem) (s : State) (hrep : Represents m s) (msg : Msg) :
    Represents { m with out := m.out ++ [msg] } (s.print msg) := by
  obtain ⟨live, snaps, hlive, hhead, hsn, hst, hnd, hout⟩ := hrep
  exact ⟨live, snaps, hlive, hhead, hsn, hst, hnd, by simp [State.print, hout]⟩

/-- The walk and what follows it in `insert_after` and `insert_before`: either
the walk ends at `NULL`, as on the list, or the two link assignments succeed
and the memory represents the list with the new node linked in. -/
theorem mem_walk_then_link (m : Mem) (s : State) (hrep : Represents m s) (bound : Int)
    (data : Int) :
    ∃ temp, Mem.walk ((Mem.create_node m.heap data).1.cells.length + 1)
        (Mem.create_node m.heap data).1 bound m.head 0 = some temp
      ∧ ((temp = 0 ∧ insert_after_loop bound (create_node data) s.head 0 = none)
        ∨ (temp ≠ 0 ∧ ∃ l h2, insert_after_loop bound (create_node data) s.head 0 = some l
            ∧ Mem.link_after (Mem.create_node m.heap data).1 temp
                (Mem.create_node m.heap data).2 = some h2
            ∧ Represents ⟨h2, m.head, m.undoStack, m.out⟩ { s with head := l })) := by
  obtain ⟨live, snaps, hlive, hhead, hsn, hst, hnd, hout⟩ := hrep
  have hlb := seg_bounds hlive
  have hndl := (List.nodup_append.mp hnd).1
  have hlen := chain_length_le hlive hndl
  have hlive1 := seg_create_node hlive data
  have hnew : (Mem.create_node m.heap data).1.read (m.heap.cells.length + 1)
      = some ⟨data, 0⟩ := by
    rw [create_node_read, if_pos rfl]
  obtain ⟨hnone, hsome⟩ := mem_walk bound (create_node data) live m.head 0
    ((Mem.create_node m.heap data).1.cells.length + 1) hlive1
    (by rw [create_node_length]; omega)
  rw [hhead] at hnone hsome
  cases hloop : insert_after_loop bound (create_node data) s.head 0 with
  | none => exact ⟨0, hnone hloop, Or.inl ⟨rfl, rfl⟩⟩
  | some l =>
      obtain ⟨pre, c, post, hcs, hw, hl⟩ := hsome l hloop
      subst hcs
      have hc1 : c.1 ≠ 0 := by
        have := (hlb c.1 (by simp)).1
        omega
      have hfresh : m.heap.cells.length + 1 ∉ (pre ++ c :: post).map Prod.fst := by
        intro hmem
        have := (hlb _ hmem).2
        omega
      obtain ⟨h2, hlink, hchain2, hlen2, hsame2⟩ := mem_link_after hlive1 hndl hnew hfresh
      refine ⟨c.1, hw, Or.inr ⟨hc1, l, h2, rfl, by rw [create_node_snd]; exact hlink, ?_⟩⟩
      have hrep2 := represents_update hsn hst hnd h2 m.head
        (pre ++ c :: (m.heap.cells.length + 1, data) :: post) m.out
        (by
          intro a ha hnot
          rw [hsame2 a (fun hac => hnot (by rw [hac]; simp)) (by omega), create_node_read,
            if_neg (by omega)])
        hchain2
        (by
          intro a ha
          simp only [List.map_append, List.map_cons, List.mem_append, List.mem_cons] at ha ⊢
          rcases ha with h1 | h1 | h1 | h1
          · exact Or.inl (Or.inl h1)
          · exact Or.inl (Or.inr (Or.inl h1))
          · right; omega
          · exact Or.inl (Or.inr (Or.inr h1)))
        (by
          have hperm : List.Perm
              ((pre ++ c :: (m.heap.cells.length + 1, data) :: post).map Prod.fst)
              ((m.heap.cells.length + 1) :: (pre ++ c :: post).map Prod.fst) := by
            have hmid := @List.perm_middle _ (m.heap.cells.length + 1)
              ((pre ++ [c]).map Prod.fst) (post.map Prod.fst)
            simpa using hmid
          exact (List.Perm.nodup_iff hperm).mpr (List.nodup_cons.mpr ⟨hfresh, hndl⟩))
      have hs2 : ({ s with head := l } : State)
          = ⟨(pre ++ c :: (m.heap.cells.length + 1, data) :: post).map Prod.snd,
              s.undoStack, m.out, s.exit_status⟩ := by
        rw [hl, hout]
        simp [create_node]
      rw [hs2]
      exact hrep2

/-- Function `insert_after` on the memory does what `insert_after` does. -/
theorem mem_insert_after (m : Mem) (s : State) (hrep : Represents m s)
    (position data : Int) :
    ∃ m2, Mem.insert_after position data m = some m2
      ∧ Represents m2 (insert_after position data s) ∧ m2.undoStack = m.undoStack := by
  have hrep0 := hrep
  obtain ⟨live, snaps, hlive, hhead, hsn, hst, hnd, hout⟩ := hrep
  by_cases h0 : m.head = 0
  · have hnil : live = [] := by
      rw [h0] at hlive
      exact chain_null hlive
    subst hnil
    have hsnil : s.head = [] := by rw [← hhead]; rfl
    by_cases hp : position = 0
    · obtain ⟨m2, hm2, hrep2, hst2⟩ := mem_insert_end m s hrep0 data
      refine ⟨m2, ?_, ?_, hst2⟩
      · rw [← hm2]
        simp [Mem.insert_after, Mem.insert_end, h0, hp]
      · have hpure : insert_after position data s = insert_end data s := by
          simp [insert_after, insert_end, hsnil, hp]
        rw [hpure]
        exact hrep2
    · obtain ⟨m2, hm2, hrep2, hst2⟩ := mem_refuse m s hrep0 data
        (Msg.listEmptyCantInsert position)
      refine ⟨m2, ?_, ?_, hst2⟩
      · rw [← hm2]
        simp [Mem.insert_after, h0, hp]
      · have hpure : insert_after position data s
            = s.print (Msg.listEmptyCantInsert position) := by
          simp [insert_after, hsnil, hp]
        rw [hpure]
        exact hrep2
  · have hne : s.head ≠ [] := by
      intro hs
      rw [hs] at hhead
      have hnil : live = [] := by simpa using hhead
      subst hnil
      exact h0 hlive
    rw [insert_after_eq_match position data s hne]
    obtain ⟨temp, hwalk, hcase⟩ := mem_walk_then_link m s hrep0 position data
    rcases hcase with ⟨ht, hloop⟩ | ⟨ht, l, h2, hloop, hlink, hrep2⟩
    · obtain ⟨m2, hm2, hrep2, hst2⟩ := mem_refuse m s hrep0 data
        (Msg.positionOutOfBounds position)
      refine ⟨m2, ?_, ?_, hst2⟩
      · rw [← hm2]
        simp [Mem.insert_after, h0, hwalk, ht]
      · rw [hloop]
        exact hrep2
    · refine ⟨⟨h2, m.head, m.undoStack, m.out⟩, ?_, ?_, rfl⟩
      · simp [Mem.insert_after, h0, hwalk, ht, hlink]
      · rw [hloop]
        exact hrep2

/-- Function `insert_before` on the memory does what `insert_before` does. -/
theorem mem_insert_before (m : Mem) (s : State) (hrep : Represents m s)
    (position data : Int) :
    ∃ m2, Mem.insert_before position data m = some m2
      ∧ Represents m2 (insert_before position data s) ∧ m2.undoStack = m.undoStack := by
  by_cases hneg : position < 0
  · refine ⟨{ m with out := m.out ++ [Msg.invalidPosition position] }, ?_, ?_, rfl⟩
    · simp [Mem.insert_before, hneg]
    · have hpure : insert_before position data s
          = s.print (Msg.invalidPosition position) := by
        simp [insert_before, hneg]
      rw [hpure]
      exact represents_print m s hrep _
  · by_cases hp : position = 0
    · obtain ⟨m2, hm2, hrep2, hst2⟩ := mem_insert_begin m s hrep data
      refine ⟨m2, ?_, ?_, hst2⟩
      · rw [← hm2]
        simp [Mem.insert_before, hp]
      · have hpure : insert_before position data s = insert_begin data s := by
          simp [insert_before, hp]
        rw [hpure]
        exact hrep2
    · rw [insert_before_eq_match position data s (by omega)]
      obtain ⟨temp, hwalk, hcase⟩ := mem_walk_then_link m s hrep (position - 1) data
      rcases hcase with ⟨ht, hloop⟩ | ⟨ht, l, h2, hloop, hlink, hrep2⟩
      · obtain ⟨m2, hm2, hrep2, hst2⟩ := mem_refuse m s hrep data
          (Msg.positionOutOfBounds position)
        refine ⟨m2, ?_, ?_, hst2⟩
        · rw [← hm2]
          simp [Mem.insert_before, hneg, hp, hwalk, ht]
        · rw [hloop]
          exact hrep2
      · refine ⟨⟨h2, m.head, m.undoStack, m.out⟩, ?_, ?_, rfl⟩
        · simp [Mem.insert_before, hneg, hp, hwalk, ht, hlink]
        · rw [hloop]
          exact hrep2

/-- The loop of `edit_node` on the memory follows the loop on the list, and
when it overwrites a node it touches no other cell. -/
theorem mem_edit_node_loop {h : Heap} (old_value new_value : Int) :
    ∀ (cs : List (Nat × Int)) (temp fuel : Nat), Chain h temp cs →
      (cs.map Prod.fst).Nodup → cs.length < fuel →
      (edit_node_loop old_value new_value (cs.map Prod.snd) = none →
          Mem.edit_node_loop fuel h old_value new_value temp = some none)
        ∧ (∀ l, edit_node_loop old_value new_value (cs.map Prod.snd) = some l →
            ∃ h2 cs2, Mem.edit_node_loop fuel h old_value new_value temp = some (some h2)
              ∧ Chain h2 temp cs2 ∧ cs2.map Prod.snd = l
              ∧ cs2.map Prod.fst = cs.map Prod.fst
              ∧ (∀ a, a ∉ cs.map Prod.fst → h2.read a = h.read a)) := by
  intro cs
  induction cs with
  | nil =>
      intro temp fuel hc _ hfuel
      have ht : temp = 0 := hc
      subst ht
      obtain ⟨k, rfl⟩ : ∃ k, fuel = k + 1 := ⟨fuel - 1, by omega⟩
      constructor
      · intro _
        simp [Mem.edit_node_loop]
      · intro l hl
        simp [edit_node_loop] at hl
  | cons c cs ih =>
      intro temp fuel hc hnd hfuel
      obtain ⟨hp, nx, hr, hrest⟩ := hc
      obtain ⟨k, rfl⟩ : ∃ k, fuel = k + 1 := ⟨fuel - 1, by omega⟩
      subst hp
      have hcb := read_bounds hr
      have hc1 : c.1 ≠ 0 := by omega
      have hk : cs.length < k := by simp at hfuel; omega
      simp only [List.map_cons, List.nodup_cons] at hnd
      obtain ⟨ihnone, ihsome⟩ := ih nx k hrest hnd.2 hk
      by_cases hd : c.2 = old_value
      · constructor
        · intro hnone
          simp [edit_node_loop, hd] at hnone
        · intro l hl
          simp only [List.map_cons, edit_node_loop, hd, if_true, Option.some.injEq] at hl
          have hsame : ∀ a, a ≠ c.1 →
              (h.store c.1 (some ⟨new_value, nx⟩)).read a = h.read a := by
            intro a ha
            rw [read_store h c.1 _ a hcb.1 hcb.2, if_neg ha]
          refine ⟨h.store c.1 (some ⟨new_value, nx⟩), (c.1, new_value) :: cs, ?_, ?_, ?_, rfl, ?_⟩
          · simp [Mem.edit_node_loop, hc1, hr, hd, set_data_eq hr]
          · refine ⟨rfl, nx, ?_, seg_frame hrest ?_⟩
            · show (h.store c.1 (some ⟨new_value, nx⟩)).read c.1 = some ⟨new_value, nx⟩
              rw [read_store h c.1 _ c.1 hcb.1 hcb.2, if_pos rfl]
            · intro a ha
              exact hsame a (fun hac => hnd.1 (hac ▸ ha))
          · rw [← hl]
            rfl
          · intro a ha
            exact hsame a (fun hac => ha (by rw [hac]; simp))
      · have hstep : Mem.edit_node_loop (k + 1) h old_value new_value c.1
            = Mem.edit_node_loop k h old_value new_value nx := by
          simp [Mem.edit_node_loop, hc1, hr, hd]
        constructor
        · intro hnone
          simp only [List.map_cons, edit_node_loop, hd, if_false, Option.map_eq_none'] at hnone
          rw [hstep]
          exact ihnone hnone
        · intro l hl
          simp only [List.map_cons, edit_node_loop, hd, if_false, Option.map_eq_some'] at hl
          obtain ⟨l2, hl2, hl⟩ := hl
          obtain ⟨h2, cs2, hloop, hchain2, hdata2, hfp2, hsame2⟩ := ihsome l2 hl2
          refine ⟨h2, c :: cs2, by rw [hstep]; exact hloop, ?_, ?_, ?_, ?_⟩
          · refine ⟨rfl, nx, ?_, hchain2⟩
            rw [hsame2 c.1 hnd.1]
            exact hr
          · rw [← hl, ← hdata2]
            rfl
          · simp [hfp2]
          · intro a ha
            exact hsame2 a (fun hmem => ha (by simp [hmem]))

/-- Function `edit_node` on the memory does what `edit_node` does. -/
theorem mem_edit_node (m : Mem) (s : State) (hrep : Represents m s)
    (old_value new_value : Int) :
    ∃ m2, Mem.edit_node old_value new_value m = some m2
      ∧ Represents m2 (edit_node old_value new_value s) ∧ m2.undoStack = m.undoStack := by
  have hrep0 := hrep
  obtain ⟨live, snaps, hlive, hhead, hsn, hst, hnd, hout⟩ := hrep
  have hndl := (List.nodup_append.mp hnd).1
  have hlen := chain_length_le hlive hndl
  obtain ⟨hnone, hsome⟩ := mem_edit_node_loop old_value new_value live m.head
    (m.heap.cells.length + 1) hlive hndl (by omega)
  rw [hhead] at hnone hsome
  cases hloop : edit_node_loop old_value new_value s.head with
  | none =>
      refine ⟨{ m with out := m.out ++ [Msg.valueNotFound old_value] }, ?_, ?_, rfl⟩
      · simp [Mem.edit_node, hnone hloop]
      · have hpure : edit_node old_value new_value s
            = s.print (Msg.valueNotFound old_value) := by
          simp [edit_node, hloop]
        rw [hpure]
        exact represents_print m s hrep0 _
  | some l =>
      obtain ⟨h2, cs2, hmem, hchain2, hdata2, hfp2, hsame2⟩ := hsome l hloop
      refine ⟨{ m with heap := h2 }, ?_, ?_, rfl⟩
      · simp [Mem.edit_node, hmem]
      · have hrep2 := represents_update hsn hst hnd h2 m.head cs2 m.out
          (fun a _ hnot => hsame2 a hnot) hchain2
          (fun a ha => Or.inl (hfp2 ▸ ha)) (hfp2 ▸ hndl)
        have hpure : edit_node old_value new_value s
            = ⟨cs2.map Prod.snd, s.undoStack, m.out, s.exit_status⟩ := by
          simp [edit_node, hloop, hdata2, hout]
        rw [hpure]
        exact hrep2

/-- The loop of `copy_list`: with `temp_new` a node outside the rest of the
source chain whose `next` is `NULL`, the loop hangs behind it newly allocated
nodes carrying the data of the rest of the source, and changes no other cell
that existed before. -/
theorem mem_copy_list_loop :
    ∀ (rest : List (Nat × Int)) (hcur : Heap) (temp_new temp_src : Nat) (d : Int)
      (fuel : Nat),
      Chain hcur temp_src rest → temp_new ∉ rest.map Prod.fst →
      hcur.read temp_new = some ⟨d, 0⟩ → rest.length < fuel →
      ∃ h2 cs2, Mem.copy_list_loop fuel hcur temp_new temp_src = some h2
        ∧ Chain h2 temp_new ((temp_new, d) :: cs2)
        ∧ cs2.map Prod.snd = rest.map Prod.snd
        ∧ (∀ a ∈ cs2.map Prod.fst, hcur.cells.length < a)
        ∧ (cs2.map Prod.fst).Nodup
        ∧ (∀ a, a ≤ hcur.cells.length → a ≠ temp_new → h2.read a = hcur.read a) := by
  intro rest
  induction rest with
  | nil =>
      intro hcur temp_new temp_src d fuel hc _ hnew hfuel
      have ht : temp_src = 0 := hc
      subst ht
      obtain ⟨k, rfl⟩ : ∃ k, fuel = k + 1 := ⟨fuel - 1, by omega⟩
      exact ⟨hcur, [], by simp [Mem.copy_list_loop], ⟨rfl, 0, hnew, rfl⟩, rfl, by simp,
        by simp, fun _ _ _ => rfl⟩
  | cons c rest ih =>
      intro hcur temp_new temp_src d fuel hc hnotin hnew hfuel
      obtain ⟨hp, nx, hr, hrest⟩ := hc
      subst hp
      obtain ⟨k, rfl⟩ : ∃ k, fuel = k + 1 := ⟨fuel - 1, by omega⟩
      have hk : rest.length < k := by simp at hfuel; omega
      have hcb := read_bounds hr
      have hnb := read_bounds hnew
      have hc1 : c.1 ≠ 0 := by omega
      simp only [List.map_cons, List.mem_cons, not_or] at hnotin
      have hrb := seg_bounds hrest
      -- the memory after `create_node` and after `temp_new->next = ...`
      have hnew1 : (Mem.create_node hcur c.2).1.read temp_new = some ⟨d, 0⟩ := by
        rw [create_node_read, if_neg (by omega)]
        exact hnew
      have hread2 : ∀ a, ((Mem.create_node hcur c.2).1.store temp_new
          (some ⟨d, hcur.cells.length + 1⟩)).read a
            = if a = temp_new then some ⟨d, hcur.cells.length + 1⟩
              else if a = hcur.cells.length + 1 then some ⟨c.2, 0⟩ else hcur.read a := by
        intro a
        rw [read_store _ _ _ _ hnb.1 (by rw [create_node_length]; omega), create_node_read]
      have hlen2 : ((Mem.create_node hcur c.2).1.store temp_new
          (some ⟨d, hcur.cells.length + 1⟩)).cells.length = hcur.cells.length + 1 := by
        rw [length_store, create_node_length]
      obtain ⟨h3, cs3, hloop, hchain3, hdata3, hfresh3, hnd3, hsame3⟩ :=
        ih ((Mem.create_node hcur c.2).1.store temp_new (some ⟨d, hcur.cells.length + 1⟩))
          (hcur.cells.length + 1) nx c.2 k
          (seg_frame hrest (fun a ha => by
            have := (hrb a ha).2
            have hne : a ≠ temp_new := fun hac => hnotin.2 (by rw [← hac]; exact ha)
            rw [hread2, if_neg hne, if_neg (by omega)]))
          (fun hmem => by
            have := (hrb _ hmem).2
            omega)
          (by rw [hread2, if_neg (by omega), if_pos rfl])
          hk
      rw [hlen2] at hfresh3 hsame3
      refine ⟨h3, (hcur.cells.length + 1, c.2) :: cs3, ?_, ?_, ?_, ?_, ?_, ?_⟩
      · have hrn : ((Mem.create_node hcur c.2).1.store temp_new
            (some ⟨d, hcur.cells.length + 1⟩)).read temp_new
              = some ⟨d, hcur.cells.length + 1⟩ := by
          rw [hread2, if_pos rfl]
        have hrs : ((Mem.create_node hcur c.2).1.store temp_new
            (some ⟨d, hcur.cells.length + 1⟩)).read c.1 = some ⟨c.2, nx⟩ := by
          rw [hread2, if_neg (fun hac => hnotin.1 hac.symm), if_neg (by omega)]
          exact hr
        simp only [Mem.copy_list_loop, hc1, if_false, hr, create_node_snd,
          set_next_eq hnew1, hrn, hrs]
        exact hloop
      · refine ⟨rfl, hcur.cells.length + 1, ?_, hchain3⟩
        show h3.read temp_new = some ⟨d, hcur.cells.length + 1⟩
        rw [hsame3 temp_new (by omega) (by omega), hread2, if_pos rfl]
      · simp [hdata3]
      · intro a ha
        simp only [List.map_cons, List.mem_cons] at ha
        rcases ha with h1 | h1
        · omega
        · have := hfresh3 a h1
          omega
      · simp only [List.map_cons, List.nodup_cons]
        refine ⟨fun hmem => ?_, hnd3⟩
        have := hfresh3 _ hmem
        omega
      · intro a ha hne
        rw [hsame3 a (by omega) (by omega), hread2, if_neg hne, if_neg (by omega)]

/-- Function `copy_list`: the copy is a chain of newly allocated nodes with the
data of the source, and no cell that existed before is changed. -/
theorem mem_copy_list {h : Heap} {source : Nat} {cs : List (Nat × Int)}
    (hc : Chain h source cs) (hnd : (cs.map Prod.fst).Nodup) :
    ∃ h2 q cs2, Mem.copy_list h source = some (h2, q)
      ∧ Chain h2 q cs2
      ∧ cs2.map Prod.snd = cs.map Prod.snd
      ∧ (∀ a ∈ cs2.map Prod.fst, h.cells.length < a)
      ∧ (cs2.map Prod.fst).Nodup
      ∧ (∀ a, a ≤ h.cells.length → h2.read a = h.read a) := by
  have hlen := chain_length_le hc hnd
  cases cs with
  | nil =>
      have hs : source = 0 := hc
      subst hs
      exact ⟨h, 0, [], by simp [Mem.copy_list], rfl, rfl, by simp, by simp, fun _ _ => rfl⟩
  | cons c rest =>
      obtain ⟨hp, nx, hr, hrest⟩ := hc
      subst hp
      have hcb := read_bounds hr
      have hc1 : c.1 ≠ 0 := by omega
      have hrb := seg_bounds hrest
      have hr1 : (Mem.create_node h c.2).1.read c.1 = some ⟨c.2, nx⟩ := by
        rw [create_node_read, if_neg (by omega)]
        exact hr
      obtain ⟨h2, cs2, hloop, hchain2, hdata2, hfresh2, hnd2, hsame2⟩ :=
        mem_copy_list_loop rest (Mem.create_node h c.2).1 (h.cells.length + 1) nx c.2
          (h.cells.length + 1) (seg_create_node hrest c.2)
          (fun hmem => by
            have := (hrb _ hmem).2
            omega)
          (by rw [create_node_read, if_pos rfl])
          (by simp at hlen; omega)
      rw [create_node_length] at hfresh2 hsame2
      refine ⟨h2, h.cells.length + 1, (h.cells.length + 1, c.2) :: cs2, ?_, hchain2, ?_, ?_,
        ?_, ?_⟩
      · simp only [Mem.copy_list, hc1, if_false, hr, hr1, create_node_snd, hloop]
      · simp [hdata2]
      · intro a ha
        simp only [List.map_cons, List.mem_cons] at ha
        rcases ha with h1 | h1
        · omega
        · have := hfresh2 a h1
          omega
      · simp only [List.map_cons, List.nodup_cons]
        refine ⟨fun hmem => ?_, hnd2⟩
        have := hfresh2 _ hmem
        omega
      · intro a ha
        rw [hsame2 a (by omega) (by omega), create_node_read, if_neg (by omega)]

/-- Function `push_stack` on the memory does what `push_stack` does: the new
top entry is a chain of new nodes, and the live list and the older entries are
the same pointers to the same cells. -/
theorem mem_push_stack (m : Mem) (s : State) (hrep : Represents m s) :
    ∃ m2 q, Mem.push_stack m = some m2 ∧ Represents m2 (push_stack s)
      ∧ m2.head = m.head ∧ m2.undoStack = q :: m.undoStack
      ∧ (∀ a, a ≤ m.heap.cells.length → m2.heap.read a = m.heap.read a) := by
  obtain ⟨live, snaps, hlive, hhead, hsn, hst, hnd, hout⟩ := hrep
  obtain ⟨hndl, hnds, hdisj⟩ := List.nodup_append.mp hnd
  have hlb := seg_bounds hlive
  have hsb := snaps_bounds hsn
  obtain ⟨h2, q, cs2, hcopy, hchain2, hdata2, hfresh2, hnd2, hsame2⟩ :=
    mem_copy_list hlive hndl
  refine ⟨⟨h2, m.head, q :: m.undoStack, m.out⟩, q, ?_, ?_, rfl, rfl, hsame2⟩
  · simp [Mem.push_stack, hcopy]
  · refine ⟨live, cs2 :: snaps, seg_frame hlive (fun a ha => hsame2 a (hlb a ha).2), hhead,
      List.Forall₂.cons hchain2 (snaps_frame hsn (fun a ha => hsame2 a (hsb a ha).2)), ?_, ?_,
      hout⟩
    · simp [push_stack, copy_list_eq, hdata2, hhead, hst]
    · simp only [List.map_cons, List.flatten_cons]
      refine List.nodup_append.mpr ⟨hndl, List.nodup_append.mpr ⟨hnd2, hnds, ?_⟩, ?_⟩
      · intro a ha1 ha2
        have := hfresh2 a ha1
        have := (hsb a ha2).2
        omega
      · intro a ha1 ha2
        rcases List.mem_append.mp ha2 with h1 | h1
        · have := hfresh2 a h1
          have := (hlb a ha1).2
          omega
        · exact hdisj ha1 h1

/-- Function `free_list` frees the nodes of the chain it is given and touches
no other cell. -/
theorem mem_free_list :
    ∀ (cs : List (Nat × Int)) (h : Heap) (node fuel : Nat), Chain h node cs →
      (cs.map Prod.fst).Nodup → cs.length < fuel →
      ∃ h2, Mem.free_list fuel h node = some h2
        ∧ h2.cells.length = h.cells.length
        ∧ (∀ a, a ∉ cs.map Prod.fst → h2.read a = h.read a) := by
  intro cs
  induction cs with
  | nil =>
      intro h node fuel hc _ hfuel
      have hn : node = 0 := hc
      subst hn
      obtain ⟨k, rfl⟩ : ∃ k, fuel = k + 1 := ⟨fuel - 1, by omega⟩
      exact ⟨h, by simp [Mem.free_list], rfl, fun _ _ => rfl⟩
  | cons c cs ih =>
      intro h node fuel hc hnd hfuel
      obtain ⟨hp, nx, hr, hrest⟩ := hc
      subst hp
      obtain ⟨k, rfl⟩ : ∃ k, fuel = k + 1 := ⟨fuel - 1, by omega⟩
      have hk : cs.length < k := by simp at hfuel; omega
      have hcb := read_bounds hr
      have hc1 : c.1 ≠ 0 := by omega
      simp only [List.map_cons, List.nodup_cons] at hnd
      have hsame : ∀ a, a ≠ c.1 → (h.store c.1 none).read a = h.read a := by
        intro a ha
        rw [read_store h c.1 _ a hcb.1 hcb.2, if_neg ha]
      obtain ⟨h2, hfree, hlen2, hsame2⟩ := ih (h.store c.1 none) nx k
        (seg_frame hrest (fun a ha => hsame a (fun hac => hnd.1 (by rw [← hac]; exact ha))))
        hnd.2 hk
      refine ⟨h2, ?_, by rw [hlen2, length_store], ?_⟩
      · simp only [Mem.free_list, hc1, if_false, hr, free_eq hr]
        exact hfree
      · intro a ha
        simp only [List.map_cons, List.mem_cons, not_or] at ha
        rw [hsame2 a ha.2, hsame a ha.1]

/-- Function `pop_stack` on the memory does what `pop_stack` does: with a
non-empty stack the live list becomes the chain of the top entry, the other
entries stay, and what was the live chain is freed. -/
theorem mem_pop_stack (m : Mem) (s : State) (hrep : Represents m s) :
    ∃ m2, Mem.pop_stack m = some m2 ∧ Represents m2 (pop_stack s)
      ∧ (∀ top rest, m.undoStack = top :: rest → m2.head = top ∧ m2.undoStack = rest) := by
  have hrep0 := hrep
  obtain ⟨live, snaps, hlive, hhead, hsn, hst, hnd, hout⟩ := hrep
  obtain ⟨hndl, hnds, hdisj⟩ := List.nodup_append.mp hnd
  cases hstack : m.undoStack with
  | nil =>
      have hsnil : s.undoStack = [] := by
        rw [hstack] at hsn
        cases hsn
        rw [← hst]
        rfl
      refine ⟨{ m with out := m.out ++ [Msg.noOperationsToUndo] }, ?_, ?_, ?_⟩
      · simp [Mem.pop_stack, hstack]
      · have hpure : pop_stack s = s.print Msg.noOperationsToUndo := by
          simp [pop_stack, hsnil]
        rw [hpure]
        exact represents_print m s hrep0 _
      · intro top rest h
        simp at h
  | cons top rest =>
      rw [hstack] at hsn
      cases hsn with
      | cons htop hrest_chains =>
          rename_i st srest
          obtain ⟨h2, hfree, hlen2, hsame2⟩ := mem_free_list live m.heap m.head
            (m.heap.cells.length + 1) hlive hndl
            (by have := chain_length_le hlive hndl; omega)
          simp only [List.map_cons, List.flatten_cons] at hnds hdisj
          have hframe : ∀ a ∈ st.map Prod.fst ++ (srest.map (List.map Prod.fst)).flatten,
              h2.read a = m.heap.read a := by
            intro a ha
            exact hsame2 a (fun hl => hdisj hl ha)
          refine ⟨⟨h2, top, rest, m.out⟩, ?_, ?_, ?_⟩
          · simp [Mem.pop_stack, hstack, hfree]
          · have hpure : pop_stack s
                = { s with head := st.map Prod.snd,
                           undoStack := srest.map (List.map Prod.snd) } := by
              have hs : s.undoStack
                  = st.map Prod.snd :: srest.map (List.map Prod.snd) := by
                rw [← hst]
                rfl
              exact pop_stack_cons s _ _ hs
            rw [hpure]
            exact ⟨st, srest,
              seg_frame htop (fun a ha => hframe a (List.mem_append_left _ ha)), rfl,
              snaps_frame hrest_chains (fun a ha => hframe a (List.mem_append_right _ ha)),
              rfl, hnds, hout⟩
          · intro top2 rest2 h
            simp only [List.cons.injEq] at h
            exact ⟨h.1, h.2⟩

/-- Each of the five list operations on the memory does what the operation on
lists does and leaves the snapshot pointers as they are. -/
theorem mem_mutating_ops (m : Mem) (s : State) (hrep : Represents m s)
    (position data old_value new_value : Int) :
    ∀ pr ∈ List.zip (Mem.mutating_ops position data old_value new_value)
        (mutating_ops position data old_value new_value),
      ∃ m2, pr.1 m = some m2 ∧ Represents m2 (pr.2 s) ∧ m2.undoStack = m.undoStack
        ∧ (pr.2 s).undoStack = s.undoStack := by
  intro pr hpr
  simp only [Mem.mutating_ops, mutating_ops, List.zip_cons_cons, List.zip_nil_right,
    List.mem_cons, List.not_mem_nil, or_false] at hpr
  rcases hpr with h | h | h | h | h <;> subst h
  · obtain ⟨m2, h1, h2, h3⟩ := mem_insert_end m s hrep data
    exact ⟨m2, h1, h2, h3, by simp⟩
  · obtain ⟨m2, h1, h2, h3⟩ := mem_insert_begin m s hrep data
    exact ⟨m2, h1, h2, h3, by simp⟩
  · obtain ⟨m2, h1, h2, h3⟩ := mem_insert_after m s hrep position data
    exact ⟨m2, h1, h2, h3, by simp⟩
  · obtain ⟨m2, h1, h2, h3⟩ := mem_insert_before m s hrep position data
    exact ⟨m2, h1, h2, h3, by simp⟩
  · obtain ⟨m2, h1, h2, h3⟩ := mem_edit_node m s hrep old_value new_value
    exact ⟨m2, h1, h2, h3, by simp⟩

/-- What a represented state says about one snapshot: the pointer at depth `i`
of the stack holds the list at depth `i` of the abstract stack. -/
theorem represents_snapshot {m : Mem} {s : State} (hrep : Represents m s) (i : Nat)
    (p : Nat) (hp : m.undoStack[i]? = some p) :
    ∃ xs, s.undoStack[i]? = some xs ∧ Holds m.heap p xs := by
  obtain ⟨live, snaps, -, -, hsn, hst, -, -⟩ := hrep
  have hall : ∀ (ps : List Nat) (sn : List (List (Nat × Int))),
      List.Forall₂ (Chain m.heap) ps sn → ∀ (i : Nat) (p : Nat), ps[i]? = some p →
        ∃ xs, (sn.map (List.map Prod.snd))[i]? = some xs ∧ Holds m.heap p xs := by
    intro ps sn hf
    induction hf with
    | nil => intro i p h; simp at h
    | cons hc _ ih =>
        intro i p h
        cases i with
        | zero =>
            simp only [List.getElem?_cons_zero, Option.some.injEq] at h
            subst h
            exact ⟨_, by simp, _, hc, rfl⟩
        | succ j =>
            simp only [List.getElem?_cons_succ] at h
            obtain ⟨xs, hxs, hh⟩ := ih j p h
            exact ⟨xs, by simpa using hxs, hh⟩
  rw [← hst]
  exact hall m.undoStack snaps hsn i p hp

/-- The live pointer of a represented state holds the live list. -/
theorem represents_head {m : Mem} {s : State} (hrep : Represents m s) :
    Holds m.heap m.head s.head := by
  obtain ⟨live, snaps, hlive, hhead, -, -, -, -⟩ := hrep
  exact ⟨live, hlive, hhead⟩

/-- A snapshot pointer that stays on the stack, at a depth where the abstract
stack has the same entry, holds the same list afterwards. -/
theorem snapshot_kept {m m2 : Mem} {s s2 : State} (hrep : Represents m s)
    (hrep2 : Represents m2 s2) (i j : Nat) (p : Nat) (hm : m.undoStack[i]? = some p)
    (hm2 : m2.undoStack[j]? = some p) (hs : s2.undoStack[j]? = s.undoStack[i]?)
    (xs : List Int) (hx : Holds m.heap p xs) : Holds m2.heap p xs := by
  obtain ⟨ys, hys, hy⟩ := represents_snapshot hrep i p hm
  obtain ⟨zs, hzs, hz⟩ := represents_snapshot hrep2 j p hm2
  have hxy : xs = ys := holds_unique hx hy
  have hzy : zs = ys := by
    rw [hs, hys] at hzs
    exact (Option.some.inj hzs).symm
  rw [hxy, ← hzy]
  exact hz

/-! ## Deep-copy isolation -/

/-- C14 (deep-copy isolation), on the memory: in every state in which the live
list and the snapshots are chains without a common node,
(a) each of the five list operations runs to its end, keeps the snapshot
pointers, and every snapshot holds the same list afterwards;
(b) `push_stack` puts on top a pointer to a chain that holds the live list,
keeps the live pointer, which still holds the live list, and every earlier
snapshot holds the same list afterwards;
(c) `pop_stack` on a non-empty stack makes the top snapshot pointer the live
pointer, holding what the snapshot held, the remaining snapshots hold the same
lists, and so they do after any list operation run on the restored list;
and in each case the chains again have no common node. -/
theorem deep_copy_isolation (m : Mem) (s : State) (hrep : Represents m s)
    (position data old_value new_value : Int) :
    (∀ pr ∈ List.zip (Mem.mutating_ops position data old_value new_value)
          (mutating_ops position data old_value new_value),
        ∃ m2, pr.1 m = some m2 ∧ Represents m2 (pr.2 s)
          ∧ m2.undoStack = m.undoStack ∧ (pr.2 s).undoStack = s.undoStack
          ∧ ∀ (i p : Nat) (xs : List Int), m.undoStack[i]? = some p →
              Holds m.heap p xs → Holds m2.heap p xs)
      ∧ (∃ m2 q, Mem.push_stack m = some m2 ∧ Represents m2 (push_stack s)
          ∧ m2.head = m.head ∧ m2.undoStack = q :: m.undoStack
          ∧ (push_stack s).head = s.head
          ∧ (push_stack s).undoStack = s.head :: s.undoStack
          ∧ Holds m2.heap q s.head ∧ Holds m2.heap m2.head s.head
          ∧ ∀ (i p : Nat) (xs : List Int), m.undoStack[i]? = some p →
              Holds m.heap p xs → Holds m2.heap p xs)
      ∧ (∀ top rest, m.undoStack = top :: rest →
          ∃ m2, Mem.pop_stack m = some m2 ∧ Represents m2 (pop_stack s)
            ∧ m2.head = top ∧ m2.undoStack = rest
            ∧ (∀ xs : List Int, Holds m.heap top xs →
                Holds m2.heap m2.head xs ∧ (pop_stack s).head = xs)
            ∧ (∀ (i p : Nat) (xs : List Int), rest[i]? = some p →
                Holds m.heap p xs → Holds m2.heap p xs)
            ∧ (∀ pr ∈ List.zip (Mem.mutating_ops position data old_value new_value)
                  (mutating_ops position data old_value new_value),
                ∃ m3, pr.1 m2 = some m3 ∧ Represents m3 (pr.2 (pop_stack s))
                  ∧ m3.undoStack = rest
                  ∧ ∀ (i p : Nat) (xs : List Int), rest[i]? = some p →
                      Holds m.heap p xs → Holds m3.heap p xs)) := by
  refine ⟨?_, ?_, ?_⟩
  · intro pr hpr
    obtain ⟨m2, hrun, hrep2, hst2, hs2⟩ :=
      mem_mutating_ops m s hrep position data old_value new_value pr hpr
    refine ⟨m2, hrun, hrep2, hst2, hs2, ?_⟩
    intro i p xs hp hx
    exact snapshot_kept hrep hrep2 i i p hp (by rw [hst2]; exact hp) (by rw [hs2]) xs hx
  · obtain ⟨m2, q, hrun, hrep2, hhead2, hst2, -⟩ := mem_push_stack m s hrep
    have hpush : (push_stack s).undoStack = s.head :: s.undoStack := push_stack_undoStack s
    refine ⟨m2, q, hrun, hrep2, hhead2, hst2, rfl, hpush, ?_, ?_, ?_⟩
    · obtain ⟨xs, hxs, hh⟩ := represents_snapshot hrep2 0 q (by rw [hst2]; simp)
      rw [hpush] at hxs
      simp only [List.getElem?_cons_zero, Option.some.injEq] at hxs
      rw [hxs]
      exact hh
    · have hh : Holds m2.heap m2.head (push_stack s).head := represents_head hrep2
      exact hh
    · intro i p xs hp hx
      exact snapshot_kept hrep hrep2 i (i + 1) p hp (by rw [hst2]; simpa using hp)
        (by rw [hpush]; simp) xs hx
  · intro top rest hstack
    obtain ⟨m2, hrun, hrep2, hshape⟩ := mem_pop_stack m s hrep
    obtain ⟨hhead2, hst2⟩ := hshape top rest hstack
    obtain ⟨ys, hys, hy⟩ := represents_snapshot hrep 0 top (by rw [hstack]; simp)
    have hsstack : s.undoStack = ys :: s.undoStack.tail := by
      cases hsu : s.undoStack with
      | nil => rw [hsu] at hys; simp at hys
      | cons y t =>
          rw [hsu] at hys
          simp only [List.getElem?_cons_zero, Option.some.injEq] at hys
          rw [hys]
          rfl
    have hpop : pop_stack s = { s with head := ys, undoStack := s.undoStack.tail } :=
      pop_stack_cons s ys s.undoStack.tail hsstack
    have hkeep : ∀ (i p : Nat) (xs : List Int), rest[i]? = some p →
        Holds m.heap p xs → Holds m2.heap p xs := by
      intro i p xs hp hx
      refine snapshot_kept hrep hrep2 (i + 1) i p (by rw [hstack]; simpa using hp)
        (by rw [hst2]; exact hp) ?_ xs hx
      rw [hpop, hsstack]
      simp
    refine ⟨m2, hrun, hrep2, hhead2, hst2, ?_, hkeep, ?_⟩
    · intro xs hx
      have hxy : xs = ys := holds_unique hx hy
      have hh := represents_head hrep2
      rw [hpop] at hh
      rw [hxy, hpop]
      exact ⟨hh, rfl⟩
    · intro pr hpr
      obtain ⟨m3, hrun3, hrep3, hst3, hs3⟩ :=
        mem_mutating_ops m2 (pop_stack s) hrep2 position data old_value new_value pr hpr
      refine ⟨m3, hrun3, hrep3, by rw [hst3, hst2], ?_⟩
      intro i p xs hp hx
      exact snapshot_kept hrep2 hrep3 i i p (by rw [hst2]; exact hp)
        (by rw [hst3, hst2]; exact hp) (by rw [hs3]) xs (hkeep i p xs hp hx)

/-- Instance of C14: the list `[1, 2]` in cells 1 and 2 with one snapshot `[1]`
in cell 3.  `push_stack` copies the list into the new cells 4 and 5, an edit of
the live list then changes cell 1 only, and `pop_stack` frees cells 1 and 2
and makes cell 4 the head. -/
theorem deep_copy_isolation_witness :
    Represents ⟨⟨[some ⟨1, 2⟩, some ⟨2, 0⟩, some ⟨1, 0⟩]⟩, 1, [3], []⟩
        ⟨[1, 2], [[1]], [], none⟩
      ∧ (∃ m2 q, Mem.push_stack ⟨⟨[some ⟨1, 2⟩, some ⟨2, 0⟩, some ⟨1, 0⟩]⟩, 1, [3], []⟩
            = some m2
          ∧ m2.undoStack = q :: [3] ∧ Holds m2.heap q [1, 2] ∧ Holds m2.heap m2.head [1, 2]
          ∧ Holds m2.heap 3 [1])
      ∧ Mem.push_stack ⟨⟨[some ⟨1, 2⟩, some ⟨2, 0⟩, some ⟨1, 0⟩]⟩, 1, [3], []⟩
          = some ⟨⟨[some ⟨1, 2⟩, some ⟨2, 0⟩, some ⟨1, 0⟩, some ⟨1, 5⟩, some ⟨2, 0⟩]⟩,
              1, [4, 3], []⟩
      ∧ Mem.edit_node 1 9
            ⟨⟨[some ⟨1, 2⟩, some ⟨2, 0⟩, some ⟨1, 0⟩, some ⟨1, 5⟩, some ⟨2, 0⟩]⟩, 1, [4, 3], []⟩
          = some ⟨⟨[some ⟨9, 2⟩, some ⟨2, 0⟩, some ⟨1, 0⟩, some ⟨1, 5⟩, some ⟨2, 0⟩]⟩,
              1, [4, 3], []⟩
      ∧ Mem.pop_stack
            ⟨⟨[some ⟨9, 2⟩, some ⟨2, 0⟩, some ⟨1, 0⟩, some ⟨1, 5⟩, some ⟨2, 0⟩]⟩, 1, [4, 3], []⟩
          = some ⟨⟨[none, none, some ⟨1, 0⟩, some ⟨1, 5⟩, some ⟨2, 0⟩]⟩, 4, [3], []⟩ := by
  have hrep : Represents ⟨⟨[some ⟨1, 2⟩, some ⟨2, 0⟩, some ⟨1, 0⟩]⟩, 1, [3], []⟩
      ⟨[1, 2], [[1]], [], none⟩ :=
    ⟨[(1, 1), (2, 2)], [[(3, 1)]], ⟨rfl, 2, rfl, rfl, 0, rfl, rfl⟩, rfl,
      List.Forall₂.cons ⟨rfl, 0, rfl, rfl⟩ List.Forall₂.nil, rfl, by decide, rfl⟩
  refine ⟨hrep, ?_, by decide, by decide, by decide⟩
  obtain ⟨m2, q, hrun, -, -, hst, -, -, hq, hhead, hkeep⟩ :=
    (deep_copy_isolation _ _ hrep 0 0 1 9).2.1
  exact ⟨m2, q, hrun, hst, hq, hhead,
    hkeep 0 3 [1] rfl ⟨[(3, 1)], ⟨rfl, 0, rfl, rfl⟩, rfl⟩⟩

end SinglyLinkedList
